import Mathlib

/-!
Verification of the deterministic sanitization and coordination core of the
AI Research Scout pipeline (src/executor.py, src/planner.py).

The development shallowly embeds the Python source:

* Python text is modeled as `List Char` / `String` (sequences of Unicode scalar
  values; Python strings may additionally hold lone surrogates, which this
  model cannot represent — none of the verified properties exercise them).
* `json.dumps(obj, ensure_ascii=False, separators=(",", ":"))` is `encVal`;
  `json.JSONDecoder().raw_decode` is `rawDecode`.  JSON numbers are modeled by
  their integer fragment: the decoder rejects fractional/exponent forms and the
  `NaN`/`Infinity` constants (floating point is outside the model; no verified
  property produces a float, and the fallback behavior of the sanitizer on a
  failed parse is modeled faithfully).
* Python dynamic values are modeled by the `JsonVal` universe; `dict` update
  keeps the first-occurrence position of a key and its last assigned value,
  which `stSet` / `objDedup` mirror.
* Fallible Python code (raising `ValueError` / `json.JSONDecodeError`) returns
  `Except String` / `Option`.
-/

namespace Scout

/-- Characters stripped by Python `str.strip()` with no argument: the ASCII
whitespace and the further code points for which `str.isspace()` holds
(file/group/record/unit separators, NEL, and the Unicode space separators). -/
def pySpace (c : Char) : Bool :=
  c == ' ' || c == '\t' || c == '\n' || c == '\r' || c == '\x0b' || c == '\x0c' ||
  c == '\x1c' || c == '\x1d' || c == '\x1e' || c == '\x1f' || c == '\x85' ||
  c == '\xa0' || c == ' ' || c == ' ' || c == ' ' || c == ' ' ||
  c == ' ' || c == ' ' || c == ' ' || c == ' ' || c == ' ' ||
  c == ' ' || c == ' ' || c == ' ' || c == ' ' || c == ' ' ||
  c == ' ' || c == ' ' || c == '　'

/-- Python `str.lstrip()`. -/
def pyLStrip (l : List Char) : List Char := l.dropWhile pySpace

/-- Python `str.rstrip()`. -/
def pyRStrip (l : List Char) : List Char := (l.reverse.dropWhile pySpace).reverse

/-- Python `str.strip()`. -/
def pyStrip (l : List Char) : List Char := pyLStrip (pyRStrip l)

/-- The backtick character (written by code point to keep source fences out of
the text of this file). -/
def btick : Char := '\x60'

/-- The fence marker, Python string constant made of three backticks. -/
def fenceMark : List Char := [btick, btick, btick]

/-- The tagged fence marker, three backticks followed by the tag word. -/
def fenceJsonMark : List Char := [btick, btick, btick, 'j', 's', 'o', 'n']

/-- Python `s.replace(pat, rep, 1)` for a non-empty pattern: replace the first
occurrence of `pat` (anywhere in the text) by `rep`, leaving the rest alone. -/
def replaceFirst (pat rep : List Char) : List Char → List Char
  | [] => []
  | c :: cs =>
    if pat.isPrefixOf (c :: cs) then rep ++ (c :: cs).drop pat.length
    else c :: replaceFirst pat rep cs

/-- JSON inter-token whitespace accepted by Python's decoder. -/
def jsonWs (c : Char) : Bool := c == ' ' || c == '\t' || c == '\n' || c == '\r'

/-- Skip JSON whitespace. -/
def skipWs (l : List Char) : List Char := l.dropWhile jsonWs

mutual

/-- A JSON value as produced by Python's `json` module (integer fragment of
numbers; objects keep insertion order like Python `dict`). -/
inductive JsonVal : Type where
  | null : JsonVal
  | bool (b : Bool) : JsonVal
  | num (n : Int) : JsonVal
  | str (s : String) : JsonVal
  | arr (xs : JsonArr) : JsonVal
  | obj (kvs : JsonObj) : JsonVal

/-- A JSON array, as a sequence of values. -/
inductive JsonArr : Type where
  | nil : JsonArr
  | cons (v : JsonVal) (tl : JsonArr) : JsonArr

/-- A JSON object, as a key/value sequence in insertion order. -/
inductive JsonObj : Type where
  | nil : JsonObj
  | cons (k : String) (v : JsonVal) (tl : JsonObj) : JsonObj

end

deriving instance DecidableEq for JsonVal, JsonArr, JsonObj

/-- Lowercase hexadecimal digit, as Python's `"%04x"` formatting uses. -/
def hexDigit (n : Nat) : Char :=
  if n < 10 then Char.ofNat (48 + n) else Char.ofNat (87 + n)

/-- Escape one character, following `json.encoder` with `ensure_ascii=False`:
backslash, double quote and the named control escapes get two-character forms,
the remaining control characters become `\u00xx`, everything else is literal. -/
def escChar (c : Char) : List Char :=
  if c = '\\' then ['\\', '\\']
  else if c = '"' then ['\\', '"']
  else if c = '\n' then ['\\', 'n']
  else if c = '\r' then ['\\', 'r']
  else if c = '\t' then ['\\', 't']
  else if c = '\x08' then ['\\', 'b']
  else if c = '\x0c' then ['\\', 'f']
  else if c.toNat < 32 then
    ['\\', 'u', '0', '0', hexDigit (c.toNat / 16), hexDigit (c.toNat % 16)]
  else [c]

/-- Escape a character sequence. -/
def escList : List Char → List Char
  | [] => []
  | c :: cs => escChar c ++ escList cs

/-- Encoding of a JSON string: quote, escaped content, quote. -/
def encString (s : String) : List Char := '"' :: (escList s.toList ++ ['"'])

/-- Decimal digits of a number, least significant first, with explicit fuel
(the number itself is always enough fuel, since the number of digits is at
most the number). -/
def digitsRevGo : Nat → Nat → List Char
  | _, 0 => []
  | 0, _ + 1 => []
  | f + 1, n + 1 => Char.ofNat (48 + (n + 1) % 10) :: digitsRevGo f ((n + 1) / 10)

/-- Decimal digits of a number, least significant first. -/
def digitsRev (n : Nat) : List Char := digitsRevGo n n

/-- Decimal rendering of a natural number, as Python `str` produces. -/
def encNat (n : Nat) : List Char :=
  if n = 0 then ['0'] else (digitsRev n).reverse

/-- Decimal rendering of an integer, as Python `str` produces. -/
def encInt (i : Int) : List Char :=
  if i < 0 then '-' :: encNat i.natAbs else encNat i.natAbs

/-- The spelling `json.dumps` writes for `None`. -/
def nullChars : List Char := ['n', 'u', 'l', 'l']

/-- The spelling `json.dumps` writes for `True`. -/
def trueChars : List Char := ['t', 'r', 'u', 'e']

/-- The spelling `json.dumps` writes for `False`. -/
def falseChars : List Char := ['f', 'a', 'l', 's', 'e']

mutual

/-- Model of `json.dumps(v, ensure_ascii=False, separators=(",", ":"))`:
compact encoding, insertion-ordered object keys, non-ASCII kept literal. -/
def encVal : JsonVal → List Char
  | .null => nullChars
  | .bool true => trueChars
  | .bool false => falseChars
  | .num n => encInt n
  | .str s => encString s
  | .arr .nil => ['[', ']']
  | .arr (.cons v tl) => '[' :: (encVal v ++ encArrTail tl)
  | .obj .nil => ['\x7b', '\x7d']
  | .obj (.cons k v tl) => '\x7b' :: (encString k ++ ':' :: (encVal v ++ encObjTail tl))

/-- Encoding of the tail of a non-empty array (from the separator on). -/
def encArrTail : JsonArr → List Char
  | .nil => [']']
  | .cons v tl => ',' :: (encVal v ++ encArrTail tl)

/-- Encoding of the tail of a non-empty object (from the separator on). -/
def encObjTail : JsonObj → List Char
  | .nil => ['\x7d']
  | .cons k v tl => ',' :: (encString k ++ ':' :: (encVal v ++ encObjTail tl))

end

/-- String form of the compact encoding. -/
def dumps (v : JsonVal) : String := String.mk (encVal v)

/-- Value of a hexadecimal digit character, either case (the ranges are the
code-point ranges of `0`–`9`, `a`–`f`, `A`–`F`). -/
def hexVal (c : Char) : Option Nat :=
  if 48 ≤ c.toNat ∧ c.toNat ≤ 57 then some (c.toNat - 48)
  else if 97 ≤ c.toNat ∧ c.toNat ≤ 102 then some (c.toNat - 87)
  else if 65 ≤ c.toNat ∧ c.toNat ≤ 70 then some (c.toNat - 55)
  else none

/-- Value of a four-digit hexadecimal escape. -/
def hex4 (a b c d : Char) : Option Nat := do
  let x ← hexVal a
  let y ← hexVal b
  let z ← hexVal c
  let w ← hexVal d
  return x * 4096 + y * 256 + z * 16 + w

/-- One decoded unit of a JSON string: a character decoded literally or from a
two-character escape, or the code of a `\uXXXX` escape, kept apart so that
adjacent escapes can pair into a surrogate pair exactly as Python's scanner
pairs them. -/
inductive StrTok : Type where
  | lit (c : Char) : StrTok
  | uesc (u : Nat) : StrTok

/-- Tokenize the body of a JSON string after the opening quote, per Python's
strict-mode scanner: literal characters up to the closing quote, the named
escapes, and `\uXXXX` escapes (four hexadecimal digits required); raw control
characters and unknown escapes are rejected. -/
def strTokens : List Char → Option (List StrTok × List Char)
  | [] => none
  | '"' :: rest => some ([], rest)
  | '\\' :: rest =>
    match rest with
    | '"' :: r => (strTokens r).map (fun p => (.lit '"' :: p.1, p.2))
    | '\\' :: r => (strTokens r).map (fun p => (.lit '\\' :: p.1, p.2))
    | '/' :: r => (strTokens r).map (fun p => (.lit '/' :: p.1, p.2))
    | 'b' :: r => (strTokens r).map (fun p => (.lit '\x08' :: p.1, p.2))
    | 'f' :: r => (strTokens r).map (fun p => (.lit '\x0c' :: p.1, p.2))
    | 'n' :: r => (strTokens r).map (fun p => (.lit '\n' :: p.1, p.2))
    | 'r' :: r => (strTokens r).map (fun p => (.lit '\r' :: p.1, p.2))
    | 't' :: r => (strTokens r).map (fun p => (.lit '\t' :: p.1, p.2))
    | 'u' :: a :: b :: c :: d :: r =>
      match hex4 a b c d with
      | none => none
      | some u => (strTokens r).map (fun p => (.uesc u :: p.1, p.2))
    | _ => none
  | c :: rest =>
    if c.toNat < 32 then none
    else (strTokens rest).map (fun p => (.lit c :: p.1, p.2))

/-- Turn the token sequence into characters, combining a high-surrogate
`\uXXXX` escape immediately followed by a low-surrogate one, as Python's
scanner does; the pending argument holds an escape code whose pairing is still
undecided.  A lone surrogate, which Python would keep in its string, has no
Unicode scalar, so `Char.ofNat` maps it to a placeholder — no verified
property reaches this. -/
def combineToks : Option Nat → List StrTok → List Char
  | none, [] => []
  | some u, [] => [Char.ofNat u]
  | none, .lit c :: rest => c :: combineToks none rest
  | none, .uesc u :: rest => combineToks (some u) rest
  | some u, .lit c :: rest => Char.ofNat u :: c :: combineToks none rest
  | some u, .uesc u2 :: rest =>
    if 55296 ≤ u ∧ u ≤ 56319 ∧ 56320 ≤ u2 ∧ u2 ≤ 57343 then
      Char.ofNat (65536 + (u - 55296) * 1024 + (u2 - 56320)) :: combineToks none rest
    else Char.ofNat u :: combineToks (some u2) rest

/-- Body of a JSON string after the opening quote: tokenization followed by
surrogate pairing. -/
def parseStrBody (l : List Char) : Option (List Char × List Char) :=
  (strTokens l).map (fun p => (combineToks none p.1, p.2))

/-- Decimal digit test (the code-point range of `0`–`9`). -/
def isDigitCh (c : Char) : Bool := 48 ≤ c.toNat && c.toNat ≤ 57

/-- Numeric value of a digit sequence, most significant first. -/
def natOfDigits (l : List Char) : Nat :=
  l.foldl (fun a c => a * 10 + (c.toNat - 48)) 0

/-- Integer part of a JSON number per Python's number pattern: a single `0`,
or a nonzero digit followed by digits (no leading zeros). -/
def parseIntPart : List Char → Option (Nat × List Char)
  | [] => none
  | c :: rest =>
    if c = '0' then some (0, rest)
    else if isDigitCh c then
      some (natOfDigits (c :: rest.takeWhile isDigitCh), rest.dropWhile isDigitCh)
    else none

/-- Whether an exponent part (`[-+]?digit`) follows, making the number a float. -/
def expFollows : List Char → Bool
  | [] => false
  | c :: r =>
    if c = '+' ∨ c = '-' then
      match r with
      | d :: _ => isDigitCh d
      | [] => false
    else isDigitCh c

/-- JSON number per Python's pattern, integer fragment: an optional sign and an
integer part; a fractional or exponent continuation (which Python would read as
a float) is rejected by the model, as are the `NaN`/`Infinity` constants. -/
def parseNumber (l : List Char) : Option (Int × List Char) :=
  match l with
  | '-' :: l1 =>
    match parseIntPart l1 with
    | none => none
    | some (n, rest) =>
      match rest with
      | '.' :: d :: _ => if isDigitCh d then none else some (-(n : Int), rest)
      | 'e' :: tail => if expFollows tail then none else some (-(n : Int), rest)
      | 'E' :: tail => if expFollows tail then none else some (-(n : Int), rest)
      | _ => some (-(n : Int), rest)
  | _ =>
    match parseIntPart l with
    | none => none
    | some (n, rest) =>
      match rest with
      | '.' :: d :: _ => if isDigitCh d then none else some ((n : Int), rest)
      | 'e' :: tail => if expFollows tail then none else some ((n : Int), rest)
      | 'E' :: tail => if expFollows tail then none else some ((n : Int), rest)
      | _ => some ((n : Int), rest)

/-- Does the object sequence bind this key? -/
def objHasKey (k : String) : JsonObj → Bool
  | .nil => false
  | .cons k' _ tl => k' == k || objHasKey k tl

/-- Last value bound to a key, if any. -/
def objFindLast (k : String) : JsonObj → Option JsonVal
  | .nil => none
  | .cons k' v tl =>
    match objFindLast k tl with
    | some w => some w
    | none => if k' = k then some v else none

/-- Remove every binding of a key. -/
def objRemove (k : String) : JsonObj → JsonObj
  | .nil => .nil
  | .cons k' v tl => if k' = k then objRemove k tl else .cons k' v (objRemove k tl)

/-- Number of bindings. -/
def objLen : JsonObj → Nat
  | .nil => 0
  | .cons _ _ tl => objLen tl + 1

/-- Python `dict` construction with explicit fuel (the binding count is always
enough fuel, since removal does not grow the sequence). -/
def objDedupGo : Nat → JsonObj → JsonObj
  | _, .nil => .nil
  | 0, o => o
  | f + 1, .cons k v tl => .cons k ((objFindLast k tl).getD v) (objDedupGo f (objRemove k tl))

/-- Python `dict` construction from a key/value sequence: each key keeps its
first-occurrence position and its last assigned value. -/
def objDedup (o : JsonObj) : JsonObj := objDedupGo (objLen o) o

mutual

/-- Model of Python's `scan_once` at the head of the text: one JSON value, no
leading whitespace allowed, returning the value and the unconsumed rest.  The
fuel argument strictly decreases at every nested call; `rawDecode` supplies
more fuel than the text's length, which all terminating parses fit in. -/
def parseVal : Nat → List Char → Option (JsonVal × List Char)
  | 0, _ => none
  | _ + 1, [] => none
  | f + 1, c :: cs =>
    if c = '\x7b' then parseObjStart f (skipWs cs)
    else if c = '[' then parseArrStart f cs
    else if c = '"' then (parseStrBody cs).map (fun p => (.str (String.mk p.1), p.2))
    else if c = 't' then
      match cs with
      | 'r' :: 'u' :: 'e' :: r => some (.bool true, r)
      | _ => none
    else if c = 'f' then
      match cs with
      | 'a' :: 'l' :: 's' :: 'e' :: r => some (.bool false, r)
      | _ => none
    else if c = 'n' then
      match cs with
      | 'u' :: 'l' :: 'l' :: r => some (.null, r)
      | _ => none
    else (parseNumber (c :: cs)).map (fun p => (.num p.1, p.2))

/-- Object members after the opening brace (whitespace already skipped):
either the closing brace, or a first `"key": value` member and then the rest.
The collected members go through `objDedup`, as Python's scanner builds a
`dict`. -/
def parseObjStart : Nat → List Char → Option (JsonVal × List Char)
  | 0, _ => none
  | f + 1, cs =>
    match cs with
    | '\x7d' :: r => some (.obj .nil, r)
    | '"' :: r =>
      match parseStrBody r with
      | none => none
      | some (k, r1) =>
        match skipWs r1 with
        | ':' :: r2 =>
          match parseVal f (skipWs r2) with
          | none => none
          | some (v, r3) =>
            match parseObjRest f (skipWs r3) with
            | none => none
            | some (kvs, r4) => some (.obj (objDedup (.cons (String.mk k) v kvs)), r4)
        | _ => none
    | _ => none

/-- After an object member (whitespace skipped): the closing brace, or a comma
and a further member. -/
def parseObjRest : Nat → List Char → Option (JsonObj × List Char)
  | 0, _ => none
  | f + 1, cs =>
    match cs with
    | '\x7d' :: r => some (.nil, r)
    | ',' :: r =>
      match skipWs r with
      | '"' :: r1 =>
        match parseStrBody r1 with
        | none => none
        | some (k, r2) =>
          match skipWs r2 with
          | ':' :: r3 =>
            match parseVal f (skipWs r3) with
            | none => none
            | some (v, r4) =>
              match parseObjRest f (skipWs r4) with
              | none => none
              | some (kvs, r5) => some (.cons (String.mk k) v kvs, r5)
          | _ => none
      | _ => none
    | _ => none

/-- Array elements after the opening bracket: the closing bracket (after
whitespace), or a first element and then the rest. -/
def parseArrStart : Nat → List Char → Option (JsonVal × List Char)
  | 0, _ => none
  | f + 1, cs =>
    match skipWs cs with
    | ']' :: r => some (.arr .nil, r)
    | cs1 =>
      match parseVal f cs1 with
      | none => none
      | some (v, r1) =>
        match parseArrRest f (skipWs r1) with
        | none => none
        | some (tl, r2) => some (.arr (.cons v tl), r2)

/-- After an array element (whitespace skipped): the closing bracket, or a
comma and a further element. -/
def parseArrRest : Nat → List Char → Option (JsonArr × List Char)
  | 0, _ => none
  | f + 1, cs =>
    match cs with
    | ']' :: r => some (.nil, r)
    | ',' :: r =>
      match parseVal f (skipWs r) with
      | none => none
      | some (v, r1) =>
        match parseArrRest f (skipWs r1) with
        | none => none
        | some (tl, r2) => some (.cons v tl, r2)
    | _ => none

end

/-- Model of `json.JSONDecoder().raw_decode` at index 0: parse exactly one JSON
value at the start of the text and return it with the index where it ended
(here: the unconsumed rest); trailing content is not inspected. -/
def rawDecode (cs : List Char) : Option (JsonVal × List Char) :=
  parseVal (cs.length + 1) cs

/-- A JSON start character, `{` or `[`. -/
def startCh (c : Char) : Bool := c == '\x7b' || c == '['

/-- Model of `_extract_first_json_value` (executor.py): raise on empty input,
strip, remove a leading markdown fence (rewriting the first occurrence of the
tagged fence to a bare one first, as `s.replace("...", "...", 1)` does) and a
trailing fence, find the earliest `{` or `[` (the minimum of the two `find`
results), and decode exactly one JSON value there; the index of the earliest
start character is the minimum of the first `{` and first `[` positions, which
is the first position holding either. -/
def extract_first_json_value (text : String) : Except String JsonVal :=
  if text.toList = [] then .error "empty/non-string text"
  else
    let s0 := pyStrip text.toList
    let s1 :=
      if fenceMark.isPrefixOf s0 then
        pyLStrip ((replaceFirst fenceJsonMark fenceMark s0).drop 3)
      else s0
    let s2 :=
      if fenceMark.isSuffixOf s1 then pyRStrip (s1.take (s1.length - 3)) else s1
    match s2.findIdx? startCh with
    | none => .error "no JSON start found"
    | some i =>
      match rawDecode (s2.drop i) with
      | some (v, _) => .ok v
      | none => .error "Expecting value"

/-- The trailing characters stripped by `_normalize_url` (executor.py). -/
def urlPunct (c : Char) : Bool :=
  c == ')' || c == ']' || c == '.' || c == ',' || c == ';' || c == '"' || c == '\''

/-- The while loop of `_normalize_url`: while the text is non-empty and its
last character is in the punctuation set, drop the last character — that is,
discard the longest punctuation suffix, computed as `dropWhile` on the
reversed text (`normLoop_step` below proves this satisfies the loop's step
equation). -/
def normLoop (u : List Char) : List Char := (u.reverse.dropWhile urlPunct).reverse

/-- Model of `_normalize_url` (executor.py): strip, drop trailing punctuation,
strip again. -/
def normalize_url (u : String) : String :=
  String.mk (pyStrip (normLoop (pyStrip u.toList)))

/-- `_normalize_url` on a possibly absent argument: `(u or "").strip()` turns
`None` (and the empty string) into the empty string before stripping. -/
def normalize_url_opt (u : Option String) : String :=
  normalize_url (u.getD "")

mutual

/-- Model of `_sanitize_links` (executor.py): walk the structure; a mapping
entry whose key is exactly `url` and whose value is a string is replaced by its
normalized form, every other entry and element is rewritten recursively, and
scalars pass through. -/
def sanitize_links : JsonVal → JsonVal
  | .obj kvs => .obj (sanitizeObj kvs)
  | .arr xs => .arr (sanitizeArr xs)
  | v => v

/-- `_sanitize_links` over the elements of an array. -/
def sanitizeArr : JsonArr → JsonArr
  | .nil => .nil
  | .cons v tl => .cons (sanitize_links v) (sanitizeArr tl)

/-- `_sanitize_links` over the entries of an object. -/
def sanitizeObj : JsonObj → JsonObj
  | .nil => .nil
  | .cons k v tl =>
    .cons k
      (if k = "url" then
        match v with
        | .str s => .str (normalize_url s)
        | w => sanitize_links w
      else sanitize_links v)
      (sanitizeObj tl)

end

/-- Model of `sanitize_json_str` (executor.py) on a string argument: blank
input passes through; otherwise extract the first JSON value, sanitize links,
and re-encode compactly; any extraction failure returns the input unchanged
(re-encoding and the link walk are total, as `json.dumps` is on decoder
output). -/
def sanitize_json_str (raw : String) : String :=
  if pyStrip raw.toList = [] then raw
  else
    match extract_first_json_value raw with
    | .ok v => String.mk (encVal (sanitize_links v))
    | .error _ => raw

/-- `sanitize_json_str` at the dynamic-typing boundary: any non-string Python
value fails the `isinstance(raw, str)` test and is returned unchanged. -/
def sanitize_json_py : JsonVal → JsonVal
  | .str s => .str (sanitize_json_str s)
  | v => v

mutual

/-- Well-formed values: every object in the tree has pairwise distinct keys.
Python values serialized by `json.dumps` have this shape, since `dict` keys
are unique. -/
def wfVal : JsonVal → Bool
  | .arr xs => wfArr xs
  | .obj kvs => wfObj kvs
  | _ => true

/-- Well-formedness of array elements. -/
def wfArr : JsonArr → Bool
  | .nil => true
  | .cons v tl => wfVal v && wfArr tl

/-- Well-formedness of object entries: the head key is fresh and the values
are well-formed. -/
def wfObj : JsonObj → Bool
  | .nil => true
  | .cons k v tl => !objHasKey k tl && wfVal v && wfObj tl

end

/-- A string with no Python whitespace characters. -/
def wsFreeStr (s : String) : Bool := s.toList.all (fun c => !pySpace c)

mutual

/-- Every string stored directly under a `url` key is whitespace-free (the
shape of a genuine URL). -/
def urlsOkVal : JsonVal → Bool
  | .arr xs => urlsOkArr xs
  | .obj kvs => urlsOkObj kvs
  | _ => true

/-- `urlsOkVal` over array elements. -/
def urlsOkArr : JsonArr → Bool
  | .nil => true
  | .cons v tl => urlsOkVal v && urlsOkArr tl

/-- `urlsOkVal` over object entries. -/
def urlsOkObj : JsonObj → Bool
  | .nil => true
  | .cons k v tl =>
    (if k = "url" then
      match v with
      | .str s => wsFreeStr s
      | w => urlsOkVal w
    else urlsOkVal v) && urlsOkObj tl

end

/-! ### The paper-search recency filter (search_papers_func) -/

/-- Gregorian leap-year rule, as `datetime` uses. -/
def isLeap (y : Nat) : Bool := (y % 4 == 0 && y % 100 != 0) || y % 400 == 0

/-- Days in a month, as `datetime` validates. -/
def daysInMonth (y m : Nat) : Nat :=
  if m = 2 then (if isLeap y then 29 else 28)
  else if m = 4 ∨ m = 6 ∨ m = 9 ∨ m = 11 then 30 else 31

/-- A calendar date. -/
structure DateYMD where
  year : Nat
  month : Nat
  day : Nat
deriving DecidableEq, Repr

/-- Decimal digit value of a character, for date parsing. -/
def digit (c : Char) : Nat := c.toNat - 48

/-- Full match of the day field of `strptime("%Y-%m-%d")`: the pattern
`3[01]|[12]\d|0[1-9]|[1-9]`, consuming the entire remaining text. -/
def parseDayFull : List Char → Option Nat
  | [a, b] =>
    if (a = '3' ∧ (b = '0' ∨ b = '1')) ∨ ((a = '1' ∨ a = '2') ∧ isDigitCh b) ∨
        (a = '0' ∧ isDigitCh b ∧ b ≠ '0') then
      some (10 * digit a + digit b)
    else none
  | [a] => if isDigitCh a ∧ a ≠ '0' then some (digit a) else none
  | _ => none

/-- The month field and the dash-day tail of `strptime("%Y-%m-%d")`: the
pattern `1[0-2]|0[1-9]|[1-9]`, trying the two-digit alternatives first and
backtracking to a single digit, then a literal `-` and the day field, with the
whole remaining text consumed. -/
def parseMonthDay : List Char → Option (Nat × Nat)
  | a :: b :: tail =>
    if (a = '1' ∧ (b = '0' ∨ b = '1' ∨ b = '2')) ∨ (a = '0' ∧ isDigitCh b ∧ b ≠ '0') then
      match tail with
      | '-' :: dayPart =>
        match parseDayFull dayPart with
        | some d => some (10 * digit a + digit b, d)
        | none => none
      | _ => none
    else if isDigitCh a ∧ a ≠ '0' ∧ b = '-' then
      match parseDayFull tail with
      | some d => some (digit a, d)
      | none => none
    else none
  | _ => none

/-- Model of `datetime.datetime.strptime(s, "%Y-%m-%d")` on the first ten
characters of the published date: four year digits, a dash, the month and day
fields matching the whole text, then the `datetime` constructor's range
validation (year at least 1, day within the month). -/
def parseDate10 (cs : List Char) : Option DateYMD :=
  match cs with
  | y1 :: y2 :: y3 :: y4 :: '-' :: rest =>
    if isDigitCh y1 ∧ isDigitCh y2 ∧ isDigitCh y3 ∧ isDigitCh y4 then
      let y := 1000 * digit y1 + 100 * digit y2 + 10 * digit y3 + digit y4
      match parseMonthDay rest with
      | some (m, d) =>
        if 1 ≤ y ∧ 1 ≤ d ∧ d ≤ daysInMonth y m then some ⟨y, m, d⟩ else none
      | none => none
    else none
  | _ => none

/-- Day number of a civil date (days since 1970-01-01), by the standard
era-based computation; all intermediate quantities are non-negative for the
years `parseDate10` admits, so `Nat` floor division matches the reference
algorithm. -/
def daysFromCivil (d : DateYMD) : Int :=
  let y' : Nat := if d.month ≤ 2 then d.year - 1 else d.year
  let era : Nat := y' / 400
  let yoe : Nat := y' % 400
  let mp : Nat := (d.month + 9) % 12
  let doy : Nat := (153 * mp + 2) / 5 + d.day - 1
  let doe : Nat := yoe * 365 + yoe / 4 - yoe / 100 + doy
  (era * 146097 + doe : Int) - 719468

/-- An instant: a date plus seconds into the day (what `datetime.utcnow()`
yields, to second precision — finer precision changes nothing below). -/
structure Instant where
  date : DateYMD
  sec : Nat
deriving DecidableEq, Repr

/-- Seconds since the epoch of an instant; `datetime` comparison is comparison
of these values. -/
def instantSec (t : Instant) : Int := daysFromCivil t.date * 86400 + t.sec

/-- Seconds since the epoch of a parsed published date (midnight, as
`strptime` with a date-only format yields). -/
def dateMidnightSec (d : DateYMD) : Int := daysFromCivil d * 86400

/-- A parsed feed entry as `search_papers_func` reads it: each field may be
missing (`entry.get` default).  Authors are modeled by their name list. -/
structure FeedEntry where
  published : Option String
  title : Option String
  authors : List String
  link : Option String
  summary : Option String

/-- A normalized paper record, the per-entry output of `search_papers_func`. -/
structure PaperRec where
  title : String
  authors : List String
  year : Nat
  venue : String
  url : String
  summary : String
deriving DecidableEq, Repr

/-- The per-entry body of the loop in `search_papers_func` (executor.py):
parse the first ten characters of the published date; a parseable date earlier
than the cutoff (now minus `days_back` days) drops the entry; otherwise a
record is emitted, with the year falling back to the current year when the
date is unparseable and empty-string defaults for missing fields. -/
def processEntry (now : Instant) (days_back : Int) (e : FeedEntry) : Option PaperRec :=
  let published_str := e.published.getD ""
  let cutoff : Int := instantSec now - days_back * 86400
  match parseDate10 (published_str.toList.take 10) with
  | some d =>
    if dateMidnightSec d < cutoff then none
    else
      some { title := String.mk (pyStrip (e.title.getD "").toList), authors := e.authors,
             year := d.year, venue := "arXiv", url := e.link.getD "",
             summary := String.mk (pyStrip (e.summary.getD "").toList) }
  | none =>
    some { title := String.mk (pyStrip (e.title.getD "").toList), authors := e.authors,
           year := now.date.year, venue := "arXiv", url := e.link.getD "",
           summary := String.mk (pyStrip (e.summary.getD "").toList) }

/-- The whole entry loop of `search_papers_func`: one record per entry except
those the recency filter drops. -/
def processEntries (now : Instant) (days_back : Int) (es : List FeedEntry) : List PaperRec :=
  es.filterMap (processEntry now days_back)

/-! ### Shared state and the after-agent hooks -/

/-- The shared session-state mapping, string keys to Python values. -/
abbrev StateMap := List (String × JsonVal)

/-- Dictionary lookup. -/
def stGet (st : StateMap) (k : String) : Option JsonVal :=
  match st with
  | [] => none
  | (k', v) :: tl => if k' = k then some v else stGet tl k

/-- Dictionary update: an existing key keeps its position, a fresh key is
appended, as Python `dict` assignment does. -/
def stSet (st : StateMap) (k : String) (v : JsonVal) : StateMap :=
  match st with
  | [] => [(k, v)]
  | (k', v') :: tl => if k' = k then (k', v) :: tl else (k', v') :: stSet tl k v

/-- The `agent` attribute of the callback context, as far as the hooks read
it: its `output_key` attribute, `none` when absent. -/
structure AgentRef where
  output_key : Option String

/-- The callback context as the hooks read it: `agent` is `none` when the
attribute is missing or falsy, `state` is `none` when missing or not a dict. -/
structure CallbackCtx where
  agent : Option AgentRef
  state : Option StateMap

/-- Model of `after_agent_sanitize_json` (executor.py): no agent or no dict
state is a no-op; a missing or falsy (empty) output key is a no-op; a string
value under the output key is replaced by its sanitized form; any other value
is left alone. -/
def after_agent_sanitize_json (cc : CallbackCtx) : CallbackCtx :=
  match cc.agent, cc.state with
  | some ag, some st =>
    match ag.output_key with
    | none => cc
    | some k =>
      if k = "" then cc
      else
        match stGet st k with
        | some (.str s) => { cc with state := some (stSet st k (.str (sanitize_json_str s))) }
        | _ => cc
  | _, _ => cc

/-- Model of `after_agent_trim_final_summary` (executor.py): with a dict
state holding a string under `final_summary`, replace it by its stripped
form; otherwise a no-op. -/
def after_agent_trim_final_summary (cc : CallbackCtx) : CallbackCtx :=
  match cc.state with
  | some st =>
    match stGet st "final_summary" with
    | some (.str s) =>
      { cc with state := some (stSet st "final_summary" (.str (String.mk (pyStrip s.toList)))) }
    | _ => cc
  | none => cc

/-! ### The pipeline wiring (planner.py / executor.py agent definitions) -/

/-- A generation stage as the pipeline wires it: a name, the session-state
key its output is written to, and its after-agent callback. -/
structure StageSpec where
  name : String
  outKey : String
  callback : Option (CallbackCtx → CallbackCtx)

/-- Modelled from the spec: the body of a GenerationStage run (spec section
4.3) — the opaque text-generation capability `gen` produces the stage's text,
which is written under the stage's output key, and then the stage's
post-processing hook runs on the shared state; the `LlmAgent` machinery that
does this lives in the external framework, not in this repository. -/
def runStage (gen : String → String) (sp : StageSpec) (st : StateMap) : StateMap :=
  let st1 := stSet st sp.outKey (.str (gen sp.name))
  match sp.callback with
  | some cb =>
    match (cb { agent := some { output_key := some sp.outKey }, state := some st1 }).state with
    | some st2 => st2
    | none => st1
  | none => st1

/-- The planner stage (planner.py): output key `plan_json`, no callback. -/
def planner_agent : StageSpec := ⟨"PlannerAgent", "plan_json", none⟩

/-- The paper branch (executor.py): output key `papers_result`, sanitizing
callback. -/
def paper_agent : StageSpec := ⟨"PaperAgent", "papers_result", some after_agent_sanitize_json⟩

/-- The repository branch (executor.py): output key `repos_result`, sanitizing
callback. -/
def repo_agent : StageSpec := ⟨"RepoAgent", "repos_result", some after_agent_sanitize_json⟩

/-- The blog branch (executor.py): output key `blogs_result`, sanitizing
callback. -/
def blog_agent : StageSpec := ⟨"BlogAgent", "blogs_result", some after_agent_sanitize_json⟩

/-- The analyst stage (executor.py): output key `final_summary`, trimming
callback. -/
def analyst_agent : StageSpec := ⟨"AnalystAgent", "final_summary", some after_agent_trim_final_summary⟩

/-- The three branches of `parallel_research_agent` (executor.py), in their
declared order. -/
def parallel_branches : List StageSpec := [paper_agent, repo_agent, blog_agent]

/-- Modelled from the spec: the FanOutCoordinator (spec section 4.4) runs the
three branches concurrently and returns only when all have completed; since
each branch touches only its own output key, any interleaving is equivalent to
running the branches to completion in some order, which the `order` argument
ranges over. -/
def runParallel (gen : String → String) (order : List StageSpec) (st : StateMap) : StateMap :=
  order.foldl (fun s sp => runStage gen sp s) st

/-- The permutations of the three branches: the possible completion orders of
the fan-out phase. -/
def branchOrders : List (List StageSpec) :=
  [[paper_agent, repo_agent, blog_agent], [paper_agent, blog_agent, repo_agent],
   [repo_agent, paper_agent, blog_agent], [repo_agent, blog_agent, paper_agent],
   [blog_agent, paper_agent, repo_agent], [blog_agent, repo_agent, paper_agent]]

/-- Modelled from the spec: `research_pipeline` (planner.py) sequences the
planner, the fan-out coordinator, and the analyst, threading the shared
state. -/
def runPipeline (gen : String → String) (order : List StageSpec) (st : StateMap) : StateMap :=
  runStage gen analyst_agent (runParallel gen order (runStage gen planner_agent st))

/-! ## Derived definitions used by the statements -/

/-- Value of a least-significant-first digit list. -/
def ofDigitsRev : List Char → Nat
  | [] => 0
  | c :: r => (c.toNat - 48) + 10 * ofDigitsRev r

/-- Text that cannot extend a preceding JSON number: empty, or starting with
a character that is no digit, decimal point, or exponent letter.  The
separators and closers the compact encoder emits after a number all qualify. -/
def numStopB : List Char → Bool
  | [] => true
  | c :: _ => !(isDigitCh c || c == '.' || c == 'e' || c == 'E')

/-- Is the value an array or an object (so its encoding starts with `[` or
`{`)? -/
def isContainer : JsonVal → Bool
  | .arr _ => true
  | .obj _ => true
  | _ => false

/-- The condition under which parsing an encoded value is insensitive to the
trailing text: only a number's encoding could absorb following characters. -/
def numGuard : JsonVal → List Char → Bool
  | .num _, rest => numStopB rest
  | _, _ => true

/-- No `{` or `[` anywhere. -/
def braceFree (l : List Char) : Bool := l.all (fun c => !startCh c)

/-- No backtick anywhere. -/
def btickFree (l : List Char) : Bool := l.all (fun c => !(c == btick))

/-- A value that, if it is a bare string, contains no `{` or `[` — precisely
the top-level strings whose encoding the extractor cannot re-enter. -/
def topStrBraceFree : JsonVal → Bool
  | .str s => braceFree s.toList
  | _ => true

/-- Does some character equal to `a` immediately precede one equal to `b`? -/
def hasPair (a b : Char) : List Char → Bool
  | [] => false
  | x :: rest =>
    (match rest with
     | y :: _ => x == a && y == b
     | [] => false) || hasPair a b rest

/-- The last character, if any, is not Python whitespace — the shape of a
`str.strip()` result. -/
def lastNonWs (s : String) : Bool := s.toList.getLast?.all (fun c => !pySpace c)

mutual

/-- Every string stored directly under a `url` key ends in a non-whitespace
character (or is empty). -/
def urlsTrimVal : JsonVal → Bool
  | .arr xs => urlsTrimArr xs
  | .obj kvs => urlsTrimObj kvs
  | _ => true

/-- `urlsTrimVal` over array elements. -/
def urlsTrimArr : JsonArr → Bool
  | .nil => true
  | .cons v tl => urlsTrimVal v && urlsTrimArr tl

/-- `urlsTrimVal` over object entries. -/
def urlsTrimObj : JsonObj → Bool
  | .nil => true
  | .cons k v tl =>
    (if k = "url" then
      match v with
      | .str s => lastNonWs s
      | w => urlsTrimVal w
    else urlsTrimVal v) && urlsTrimObj tl

end

/-- The trailing-character set named by the specification for the `url`
invariant, read off the spec text verbatim: `)`, `\x7b`, `]`, `.`, space,
`,`, `;`, `"`, `'`. -/
def specUrlPunct (c : Char) : Bool :=
  c == ')' || c == '\x7b' || c == ']' || c == '.' || c == ' ' || c == ',' ||
    c == ';' || c == '"' || c == '\''

/-! ## Character and list helpers -/

theorem objLen_objRemove_le (k : String) : (o : JsonObj) → objLen (objRemove k o) ≤ objLen o
  | .nil => by simp [objRemove]
  | .cons k' v tl => by
    have ih := objLen_objRemove_le k tl
    simp only [objRemove]
    split
    · exact Nat.le_succ_of_le ih
    · simpa [objLen] using ih

theorem char_eq_of_toNat {c d : Char} (h : c.toNat = d.toNat) : c = d :=
  Char.eq_of_val_eq (UInt32.toNat.inj h)

theorem toNat_ofNat_lt {k : Nat} (h : k < 55296) : (Char.ofNat k).toNat = k := by
  rw [Char.ofNat, dif_pos (Or.inl h)]
  rfl

theorem mk_toList (s : String) : String.mk s.toList = s := rfl

theorem head?_all_dropWhile_eq {p : Char → Bool} {l : List Char}
    (h : l.head?.all (fun c => !p c)) : l.dropWhile p = l := by
  cases l with
  | nil => rfl
  | cons c tl =>
    simp only [List.head?_cons, Option.all_some, Bool.not_eq_true'] at h
    simp [List.dropWhile_cons, h]

theorem pyLStrip_no_op {l : List Char} (h : l.head?.all (fun c => !pySpace c)) :
    pyLStrip l = l := head?_all_dropWhile_eq h

theorem pyRStrip_no_op {l : List Char} (h : l.getLast?.all (fun c => !pySpace c)) :
    pyRStrip l = l := by
  unfold pyRStrip
  rw [head?_all_dropWhile_eq (by simpa using h), List.reverse_reverse]

theorem pyStrip_no_op {l : List Char} (h1 : l.head?.all (fun c => !pySpace c))
    (h2 : l.getLast?.all (fun c => !pySpace c)) : pyStrip l = l := by
  unfold pyStrip
  rw [pyRStrip_no_op h2, pyLStrip_no_op h1]

theorem skipWs_cons {c : Char} {l : List Char} (h : jsonWs c = false) :
    skipWs (c :: l) = c :: l := by
  simp [skipWs, List.dropWhile_cons, h]

theorem pyRStrip_append_of_ne_nil {a b : List Char} (h : pyRStrip b ≠ []) :
    pyRStrip (a ++ b) = a ++ pyRStrip b := by
  unfold pyRStrip at *
  rw [List.reverse_append, List.dropWhile_append]
  split
  · next he =>
    exfalso
    apply h
    simp only [List.isEmpty_iff] at he
    simp [he]
  · simp

theorem pyRStrip_append_of_nil {a b : List Char} (h : pyRStrip b = []) :
    pyRStrip (a ++ b) = pyRStrip a := by
  unfold pyRStrip at *
  have hb : b.reverse.dropWhile pySpace = [] := by
    have := congrArg List.reverse h
    simpa using this
  rw [List.reverse_append, List.dropWhile_append, hb]
  simp

/-! ## Decimal digit rendering -/

theorem digitsRevGo_digits : ∀ f n, ∀ c ∈ digitsRevGo f n, isDigitCh c = true := by
  intro f
  induction f with
  | zero => intro n c hc; cases n <;> simp [digitsRevGo] at hc
  | succ f ih =>
    intro n c hc
    cases n with
    | zero => simp [digitsRevGo] at hc
    | succ m =>
      simp only [digitsRevGo, List.mem_cons] at hc
      rcases hc with rfl | hc
      · have hlt : 48 + (m + 1) % 10 < 55296 := by omega
        simp [isDigitCh, toNat_ofNat_lt hlt]
        omega
      · exact ih _ _ hc

theorem ofDigitsRev_digitsRevGo : ∀ f n, n ≤ f → ofDigitsRev (digitsRevGo f n) = n := by
  intro f
  induction f with
  | zero => intro n h; interval_cases n; rfl
  | succ f ih =>
    intro n h
    cases n with
    | zero => rfl
    | succ m =>
      have hdiv : (m + 1) / 10 ≤ f := by omega
      simp only [digitsRevGo, ofDigitsRev, ih _ hdiv]
      have hlt : 48 + (m + 1) % 10 < 55296 := by omega
      rw [toNat_ofNat_lt hlt]
      omega

theorem digitsRevGo_getLast : ∀ f n, 1 ≤ n → n ≤ f →
    ∃ c, (digitsRevGo f n).getLast? = some c ∧ isDigitCh c = true ∧ c ≠ '0' := by
  intro f
  induction f with
  | zero => intro n h1 h2; omega
  | succ f ih =>
    intro n h1 h2
    cases n with
    | zero => omega
    | succ m =>
      simp only [digitsRevGo]
      by_cases hq : (m + 1) / 10 = 0
      · have hm : m < 9 := by omega
        have hgo : digitsRevGo f ((m + 1) / 10) = [] := by
          rw [hq]; cases f <;> rfl
        have hlt : 48 + (m + 1) % 10 < 55296 := by omega
        refine ⟨Char.ofNat (48 + (m + 1) % 10), ?_, ?_, ?_⟩
        · simp [hgo]
        · simp [isDigitCh, toNat_ofNat_lt hlt]; omega
        · intro he
          have := congrArg Char.toNat he
          rw [toNat_ofNat_lt hlt] at this
          rw [show ('0' : Char).toNat = 48 from rfl] at this
          omega
      · obtain ⟨c, hc1, hc2, hc3⟩ := ih ((m + 1) / 10) (by omega) (by omega)
        refine ⟨c, ?_, hc2, hc3⟩
        have hne : digitsRevGo f ((m + 1) / 10) ≠ [] := by
          intro he
          rw [he] at hc1
          simp at hc1
        cases hl : digitsRevGo f ((m + 1) / 10) with
        | nil => exact absurd hl hne
        | cons y ys =>
          rw [hl] at hc1
          rw [List.getLast?_cons_cons]
          exact hc1

theorem natOfDigits_reverse (l : List Char) : natOfDigits l.reverse = ofDigitsRev l := by
  induction l with
  | nil => rfl
  | cons c r ih =>
    simp only [List.reverse_cons, ofDigitsRev, ← ih]
    unfold natOfDigits
    rw [List.foldl_append]
    simp
    ring

/-! ## Number encoding and parsing -/

theorem takeWhile_append_all {p : Char → Bool} :
    ∀ {l₁ l₂ : List Char}, (∀ c ∈ l₁, p c = true) →
      (l₁ ++ l₂).takeWhile p = l₁ ++ l₂.takeWhile p := by
  intro l₁
  induction l₁ with
  | nil => intro l₂ _; rfl
  | cons c tl ih =>
    intro l₂ h
    have hc : p c = true := h c (List.mem_cons_self c tl)
    simp only [List.cons_append, List.takeWhile_cons, hc, if_true]
    rw [ih (fun x hx => h x (List.mem_cons_of_mem c hx))]

theorem dropWhile_append_all {p : Char → Bool} :
    ∀ {l₁ l₂ : List Char}, (∀ c ∈ l₁, p c = true) →
      (l₁ ++ l₂).dropWhile p = l₂.dropWhile p := by
  intro l₁
  induction l₁ with
  | nil => intro l₂ _; rfl
  | cons c tl ih =>
    intro l₂ h
    have hc : p c = true := h c (List.mem_cons_self c tl)
    simp only [List.cons_append, List.dropWhile_cons, hc, if_true]
    exact ih (fun x hx => h x (List.mem_cons_of_mem c hx))

theorem encNat_spec (n : Nat) :
    ∃ c r, encNat n = c :: r ∧ isDigitCh c = true ∧ (n ≠ 0 → c ≠ '0') ∧
      (∀ x ∈ r, isDigitCh x = true) ∧ natOfDigits (c :: r) = n := by
  by_cases h0 : n = 0
  · subst h0
    exact ⟨'0', [], rfl, by decide, by simp, by simp, by decide⟩
  · have h1 : 1 ≤ n := by omega
    obtain ⟨c, hlast, hdig, hne0⟩ := digitsRevGo_getLast n n h1 le_rfl
    have henc : encNat n = (digitsRevGo n n).reverse := by
      simp [encNat, h0, digitsRev]
    have hhead : (digitsRevGo n n).reverse.head? = some c := by
      rw [List.head?_reverse]
      exact hlast
    cases hrev : (digitsRevGo n n).reverse with
    | nil => rw [hrev] at hhead; simp at hhead
    | cons c' r =>
      rw [hrev] at hhead
      simp only [List.head?_cons, Option.some.injEq] at hhead
      rw [← hhead] at hdig hne0
      refine ⟨c', r, by rw [henc, hrev], hdig, fun _ => hne0, ?_, ?_⟩
      · intro x hx
        have hmem : x ∈ (digitsRevGo n n).reverse := by
          rw [hrev]; exact List.mem_cons_of_mem c' hx
        rw [List.mem_reverse] at hmem
        exact digitsRevGo_digits n n x hmem
      · have : natOfDigits (digitsRevGo n n).reverse = n := by
          rw [natOfDigits_reverse]
          exact ofDigitsRev_digitsRevGo n n le_rfl
        rw [← this, hrev]

theorem parseIntPart_encNat (n : Nat) (rest : List Char) (h : numStopB rest = true) :
    parseIntPart (encNat n ++ rest) = some (n, rest) := by
  obtain ⟨c, r, henc, hdig, hne0, hrdig, hval⟩ := encNat_spec n
  rw [henc]
  have hstop : rest.takeWhile isDigitCh = [] ∧ rest.dropWhile isDigitCh = rest := by
    cases rest with
    | nil => simp
    | cons x tl =>
      simp only [numStopB, Bool.not_eq_true', Bool.or_eq_false_iff] at h
      simp [List.takeWhile_cons, List.dropWhile_cons, h.1.1.1]
  by_cases hc0 : c = '0'
  · subst hc0
    have hn0 : n = 0 := by
      by_contra hne
      exact hne0 hne rfl
    subst hn0
    have h01 : (['0'] : List Char) = '0' :: r := henc
    have hr : r = [] := by
      have := h01.symm
      simpa using this
    subst hr
    simp [parseIntPart]
  · rw [List.cons_append]
    simp only [parseIntPart, hc0, if_false, hdig, if_true]
    rw [takeWhile_append_all hrdig, dropWhile_append_all hrdig, hstop.1, hstop.2]
    simp [hval]

theorem numStopB_facts {x : Char} {tl : List Char} (h : numStopB (x :: tl) = true) :
    isDigitCh x = false ∧ x ≠ '.' ∧ x ≠ 'e' ∧ x ≠ 'E' := by
  simp only [numStopB, Bool.not_eq_true', Bool.or_eq_false_iff, beq_eq_false_iff_ne] at h
  exact ⟨h.1.1.1, h.1.1.2, h.1.2, h.2⟩

theorem parseNumber_encInt (i : Int) (rest : List Char) (h : numStopB rest = true) :
    parseNumber (encInt i ++ rest) = some (i, rest) := by
  by_cases hneg : i < 0
  · have henc : encInt i = '-' :: encNat i.natAbs := by simp [encInt, hneg]
    rw [henc, List.cons_append]
    simp only [parseNumber]
    rw [parseIntPart_encNat _ _ h]
    simp only
    cases rest with
    | nil =>
      show some (-((i.natAbs : Nat) : Int), ([] : List Char)) = some (i, [])
      simp only [Option.some.injEq, Prod.mk.injEq]
      exact ⟨by omega, by trivial⟩
    | cons x tl =>
      obtain ⟨hxd, hx1, hx2, hx3⟩ := numStopB_facts h
      split <;> simp_all [-Int.natCast_natAbs] <;> omega
  · have henc : encInt i = encNat i.natAbs := by simp [encInt, hneg]
    obtain ⟨c, r, hn, hdig, _, _, _⟩ := encNat_spec i.natAbs
    rw [henc]
    have hsplit : encNat i.natAbs ++ rest = c :: (r ++ rest) := by rw [hn]; rfl
    rw [hsplit]
    have hcm : c ≠ '-' := by
      intro he
      rw [he] at hdig
      simp [isDigitCh] at hdig
    simp only [parseNumber]
    split
    · simp_all
    · rw [← hsplit, parseIntPart_encNat _ _ h]
      simp only
      cases rest with
      | nil =>
        show some (((i.natAbs : Nat) : Int), ([] : List Char)) = some (i, [])
        simp only [Option.some.injEq, Prod.mk.injEq]
        exact ⟨by omega, by trivial⟩
      | cons x tl =>
        obtain ⟨hxd, hx1, hx2, hx3⟩ := numStopB_facts h
        split <;> simp_all [-Int.natCast_natAbs] <;> omega

/-! ## String escaping and parsing -/

theorem hexVal_hexDigit (m : Nat) (h : m < 16) : hexVal (hexDigit m) = some m := by
  interval_cases m <;> decide

theorem hexVal_zero : hexVal '0' = some 0 := by decide

theorem hex4_control (t : Nat) (h : t < 32) :
    hex4 '0' '0' (hexDigit (t / 16)) (hexDigit (t % 16)) = some t := by
  unfold hex4
  rw [hexVal_zero, hexVal_hexDigit (t / 16) (by omega), hexVal_hexDigit (t % 16) (by omega)]
  show some (0 * 4096 + 0 * 256 + t / 16 * 16 + t % 16) = some t
  rw [Option.some.injEq]
  omega

theorem combineToks_pending {u : Nat} (h : u < 55296) (ts : List StrTok) :
    combineToks (some u) ts = Char.ofNat u :: combineToks none ts := by
  cases ts with
  | nil => rfl
  | cons t rest =>
    cases t with
    | lit c => rfl
    | uesc u2 =>
      simp only [combineToks]
      rw [if_neg]
      intro hc
      omega

theorem strTokens_quote (rest : List Char) : strTokens ('"' :: rest) = some ([], rest) := rfl

theorem strTokens_esc_bslash (rest : List Char) :
    strTokens ('\\' :: '\\' :: rest) = (strTokens rest).map (fun p => (.lit '\\' :: p.1, p.2)) :=
  rfl

theorem strTokens_esc_quote (rest : List Char) :
    strTokens ('\\' :: '"' :: rest) = (strTokens rest).map (fun p => (.lit '"' :: p.1, p.2)) :=
  rfl

theorem strTokens_esc_n (rest : List Char) :
    strTokens ('\\' :: 'n' :: rest) = (strTokens rest).map (fun p => (.lit '\n' :: p.1, p.2)) :=
  rfl

theorem strTokens_esc_r (rest : List Char) :
    strTokens ('\\' :: 'r' :: rest) = (strTokens rest).map (fun p => (.lit '\r' :: p.1, p.2)) :=
  rfl

theorem strTokens_esc_t (rest : List Char) :
    strTokens ('\\' :: 't' :: rest) = (strTokens rest).map (fun p => (.lit '\t' :: p.1, p.2)) :=
  rfl

theorem strTokens_esc_b (rest : List Char) :
    strTokens ('\\' :: 'b' :: rest) = (strTokens rest).map (fun p => (.lit '\x08' :: p.1, p.2)) :=
  rfl

theorem strTokens_esc_f (rest : List Char) :
    strTokens ('\\' :: 'f' :: rest) = (strTokens rest).map (fun p => (.lit '\x0c' :: p.1, p.2)) :=
  rfl

theorem strTokens_esc_u {a b c d : Char} {u : Nat} (h : hex4 a b c d = some u)
    (rest : List Char) :
    strTokens ('\\' :: 'u' :: a :: b :: c :: d :: rest) =
      (strTokens rest).map (fun p => (.uesc u :: p.1, p.2)) := by
  have hstep : strTokens ('\\' :: 'u' :: a :: b :: c :: d :: rest) =
      match hex4 a b c d with
      | none => (none : Option (List StrTok × List Char))
      | some u =>
        (strTokens rest).map
          (fun (p : List StrTok × List Char) => (StrTok.uesc u :: p.1, p.2)) := rfl
  rw [hstep, h]

set_option maxHeartbeats 1600000 in
theorem strTokens_cons_lit {c : Char} (h1 : c ≠ '"') (h2 : c ≠ '\\') (h3 : 32 ≤ c.toNat)
    (rest : List Char) :
    strTokens (c :: rest) = (strTokens rest).map (fun p => (.lit c :: p.1, p.2)) := by
  conv_lhs => rw [strTokens.eq_def]
  split
  · simp_all
  · simp_all
  · simp_all
  · next c' rest' heq =>
    rw [List.cons.injEq] at heq
    obtain ⟨rfl, rfl⟩ := heq
    rw [if_neg (by omega)]

theorem strTokens_escList (l : List Char) (rest : List Char) :
    ∃ ts, strTokens (escList l ++ '"' :: rest) = some (ts, rest) ∧ combineToks none ts = l := by
  induction l with
  | nil => exact ⟨[], rfl, rfl⟩
  | cons c tl ih =>
    obtain ⟨ts, hts, hc⟩ := ih
    by_cases e1 : c = '\\'
    · subst e1
      refine ⟨.lit '\\' :: ts, ?_, by simp [combineToks, hc]⟩
      show strTokens ('\\' :: '\\' :: (escList tl ++ '"' :: rest)) = _
      rw [strTokens_esc_bslash, hts]
      rfl
    · by_cases e2 : c = '"'
      · subst e2
        refine ⟨.lit '"' :: ts, ?_, by simp [combineToks, hc]⟩
        show strTokens ('\\' :: '"' :: (escList tl ++ '"' :: rest)) = _
        rw [strTokens_esc_quote, hts]
        rfl
      · by_cases e3 : c = '\n'
        · subst e3
          refine ⟨.lit '\n' :: ts, ?_, by simp [combineToks, hc]⟩
          show strTokens ('\\' :: 'n' :: (escList tl ++ '"' :: rest)) = _
          rw [strTokens_esc_n, hts]
          rfl
        · by_cases e4 : c = '\r'
          · subst e4
            refine ⟨.lit '\r' :: ts, ?_, by simp [combineToks, hc]⟩
            show strTokens ('\\' :: 'r' :: (escList tl ++ '"' :: rest)) = _
            rw [strTokens_esc_r, hts]
            rfl
          · by_cases e5 : c = '\t'
            · subst e5
              refine ⟨.lit '\t' :: ts, ?_, by simp [combineToks, hc]⟩
              show strTokens ('\\' :: 't' :: (escList tl ++ '"' :: rest)) = _
              rw [strTokens_esc_t, hts]
              rfl
            · by_cases e6 : c = '\x08'
              · subst e6
                refine ⟨.lit '\x08' :: ts, ?_, by simp [combineToks, hc]⟩
                show strTokens ('\\' :: 'b' :: (escList tl ++ '"' :: rest)) = _
                rw [strTokens_esc_b, hts]
                rfl
              · by_cases e7 : c = '\x0c'
                · subst e7
                  refine ⟨.lit '\x0c' :: ts, ?_, by simp [combineToks, hc]⟩
                  show strTokens ('\\' :: 'f' :: (escList tl ++ '"' :: rest)) = _
                  rw [strTokens_esc_f, hts]
                  rfl
                · by_cases e8 : c.toNat < 32
                  · refine ⟨.uesc c.toNat :: ts, ?_, ?_⟩
                    · have hesc : escChar c =
                          ['\\', 'u', '0', '0', hexDigit (c.toNat / 16), hexDigit (c.toNat % 16)] := by
                        simp [escChar, e1, e2, e3, e4, e5, e6, e7, e8]
                      have : escList (c :: tl) ++ '"' :: rest =
                          '\\' :: 'u' :: '0' :: '0' :: hexDigit (c.toNat / 16) ::
                            hexDigit (c.toNat % 16) :: (escList tl ++ '"' :: rest) := by
                        show escChar c ++ escList tl ++ '"' :: rest = _
                        rw [hesc]
                        rfl
                      rw [this, strTokens_esc_u (hex4_control c.toNat e8), hts]
                      rfl
                    · rw [show combineToks none (.uesc c.toNat :: ts) =
                          combineToks (some c.toNat) ts from rfl]
                      rw [combineToks_pending (by omega) ts, Char.ofNat_toNat, hc]
                  · refine ⟨.lit c :: ts, ?_, by simp [combineToks, hc]⟩
                    have hesc : escChar c = [c] := by
                      simp [escChar, e1, e2, e3, e4, e5, e6, e7, e8]
                    have : escList (c :: tl) ++ '"' :: rest = c :: (escList tl ++ '"' :: rest) := by
                      show escChar c ++ escList tl ++ '"' :: rest = _
                      rw [hesc]
                      rfl
                    rw [this, strTokens_cons_lit e2 e1 (by omega), hts]
                    rfl

theorem parseStrBody_escList (l : List Char) (rest : List Char) :
    parseStrBody (escList l ++ '"' :: rest) = some (l, rest) := by
  obtain ⟨ts, h1, h2⟩ := strTokens_escList l rest
  simp [parseStrBody, h1, h2]

/-! ## Shape of the compact encoding -/

theorem char_ne_of_toNat {c d : Char} (h : c.toNat ≠ d.toNat) : c ≠ d :=
  fun he => h (congrArg Char.toNat he)

theorem pySpace_false_of (c : Char)
    (h : ¬(c.toNat = 32 ∨ c.toNat = 9 ∨ c.toNat = 10 ∨ c.toNat = 13 ∨ c.toNat = 11 ∨
      c.toNat = 12 ∨ c.toNat = 28 ∨ c.toNat = 29 ∨ c.toNat = 30 ∨ c.toNat = 31 ∨
      c.toNat = 133 ∨ c.toNat = 160 ∨ c.toNat = 5760 ∨
      (8192 ≤ c.toNat ∧ c.toNat ≤ 8202) ∨ c.toNat = 8232 ∨ c.toNat = 8233 ∨
      c.toNat = 8239 ∨ c.toNat = 8287 ∨ c.toNat = 12288)) : pySpace c = false := by
  cases hpc : pySpace c
  · rfl
  · exfalso
    simp only [pySpace, Bool.or_eq_true, beq_iff_eq] at hpc
    rcases hpc with ((((((((((((((((((((((((((((rfl | rfl) | rfl) | rfl) | rfl) | rfl) | rfl) | rfl) | rfl) | rfl) | rfl) | rfl) | rfl) | rfl) | rfl) | rfl) | rfl) | rfl) | rfl) | rfl) | rfl) | rfl) | rfl) | rfl) | rfl) | rfl) | rfl) | rfl) | rfl)
    all_goals exact h (by decide)

theorem jsonWs_false_of (c : Char)
    (h : ¬(c.toNat = 32 ∨ c.toNat = 9 ∨ c.toNat = 10 ∨ c.toNat = 13)) :
    jsonWs c = false := by
  cases hpc : jsonWs c
  · rfl
  · exfalso
    simp only [jsonWs, Bool.or_eq_true, beq_iff_eq] at hpc
    rcases hpc with (((rfl | rfl) | rfl) | rfl)
    all_goals exact h (by decide)

theorem encNat_last (n : Nat) :
    ∃ c, (encNat n).getLast? = some c ∧ isDigitCh c = true := by
  obtain ⟨c, r, henc, hdig, _, hrd, _⟩ := encNat_spec n
  rw [henc]
  cases hr : r.getLast? with
  | none =>
    rw [List.getLast?_eq_none_iff] at hr
    subst hr
    exact ⟨c, rfl, hdig⟩
  | some d =>
    refine ⟨d, ?_, ?_⟩
    · rw [List.getLast?_cons, hr]
      rfl
    · obtain ⟨r1, rfl⟩ := List.getLast?_eq_some_iff.mp hr
      exact hrd d (by simp)

theorem encArrTail_getLast : ∀ tl : JsonArr, (encArrTail tl).getLast? = some ']'
  | .nil => rfl
  | .cons v tl => by
    have ih := encArrTail_getLast tl
    show (',' :: (encVal v ++ encArrTail tl)).getLast? = some ']'
    rw [List.getLast?_cons, List.getLast?_append, ih]
    rfl

theorem encObjTail_getLast : ∀ kvs : JsonObj, (encObjTail kvs).getLast? = some '\x7d'
  | .nil => rfl
  | .cons k v tl => by
    have ih := encObjTail_getLast tl
    show (',' :: (encString k ++ ':' :: (encVal v ++ encObjTail tl))).getLast? = some '\x7d'
    rw [List.getLast?_cons, List.getLast?_append, List.getLast?_cons,
      List.getLast?_append, ih]
    rfl

theorem encVal_getLast (v : JsonVal) :
    ∃ c, (encVal v).getLast? = some c ∧ pySpace c = false ∧ (c == btick) = false := by
  cases v with
  | null => exact ⟨'l', rfl, by decide, by decide⟩
  | bool b =>
    cases b
    · exact ⟨'e', rfl, by decide, by decide⟩
    · exact ⟨'e', rfl, by decide, by decide⟩
  | num n =>
    obtain ⟨c, hl, hdig⟩ := encNat_last n.natAbs
    have hrange : 48 ≤ c.toNat ∧ c.toNat ≤ 57 := by simpa [isDigitCh] using hdig
    have hps : pySpace c = false := pySpace_false_of c (by omega)
    have hbt : (c == btick) = false := by
      simp only [beq_eq_false_iff_ne]
      exact char_ne_of_toNat (by show c.toNat ≠ 96; omega)
    by_cases hneg : n < 0
    · have he : encVal (.num n) = '-' :: encNat n.natAbs := by
        show encInt n = _
        simp [encInt, hneg]
      rw [he, List.getLast?_cons, hl]
      exact ⟨c, rfl, hps, hbt⟩
    · have he : encVal (.num n) = encNat n.natAbs := by
        show encInt n = _
        simp [encInt, hneg]
      rw [he]
      exact ⟨c, hl, hps, hbt⟩
  | str s =>
    refine ⟨'"', ?_, by decide, by decide⟩
    show (('"' :: escList s.toList) ++ ['"']).getLast? = some '"'
    exact List.getLast?_concat _
  | arr xs =>
    cases xs with
    | nil => exact ⟨']', rfl, by decide, by decide⟩
    | cons v tl =>
      refine ⟨']', ?_, by decide, by decide⟩
      show ('[' :: (encVal v ++ encArrTail tl)).getLast? = some ']'
      rw [List.getLast?_cons, List.getLast?_append, encArrTail_getLast]
      rfl
  | obj kvs =>
    cases kvs with
    | nil => exact ⟨'\x7d', rfl, by decide, by decide⟩
    | cons k v tl =>
      refine ⟨'\x7d', ?_, by decide, by decide⟩
      show ('\x7b' :: (encString k ++ ':' :: (encVal v ++ encObjTail tl))).getLast? =
        some '\x7d'
      rw [List.getLast?_cons, List.getLast?_append, List.getLast?_cons,
        List.getLast?_append, encObjTail_getLast]
      rfl

theorem encVal_head (v : JsonVal) :
    ∃ c r, encVal v = c :: r ∧
      (c = '\x7b' ∨ c = '[' ∨ c = '"' ∨ c = 't' ∨ c = 'f' ∨ c = 'n' ∨ c = '-' ∨
        isDigitCh c = true) ∧
      (isContainer v = true ↔ startCh c = true) := by
  cases v with
  | null => exact ⟨'n', _, rfl, by simp, by decide⟩
  | bool b =>
    cases b
    · exact ⟨'f', _, rfl, by simp, by decide⟩
    · exact ⟨'t', _, rfl, by simp, by decide⟩
  | num n =>
    obtain ⟨c, r, henc, hdig, _, _, _⟩ := encNat_spec n.natAbs
    by_cases hneg : n < 0
    · refine ⟨'-', encNat n.natAbs, ?_, by simp, by simp [isContainer, startCh]⟩
      show encInt n = _
      simp [encInt, hneg]
    · refine ⟨c, r, ?_, by simp [hdig], ?_⟩
      · show encInt n = _
        simp [encInt, hneg, henc]
      · have hrange : 48 ≤ c.toNat ∧ c.toNat ≤ 57 := by simpa [isDigitCh] using hdig
        constructor
        · intro hc
          exact absurd hc (by simp [isContainer])
        · intro hc
          simp only [startCh, Bool.or_eq_true, beq_iff_eq] at hc
          rcases hc with rfl | rfl
          · exact absurd hrange (by decide)
          · exact absurd hrange (by decide)
  | str s => exact ⟨'"', _, rfl, by simp, by simp [isContainer, startCh]⟩
  | arr xs =>
    cases xs with
    | nil => exact ⟨'[', _, rfl, by simp, by simp [isContainer, startCh]⟩
    | cons v tl => exact ⟨'[', _, rfl, by simp, by simp [isContainer, startCh]⟩
  | obj kvs =>
    cases kvs with
    | nil => exact ⟨'\x7b', _, rfl, by simp, by simp [isContainer, startCh]⟩
    | cons k v tl => exact ⟨'\x7b', _, rfl, by simp, by simp [isContainer, startCh]⟩

theorem head_char_facts {c : Char}
    (h : c = '\x7b' ∨ c = '[' ∨ c = '"' ∨ c = 't' ∨ c = 'f' ∨ c = 'n' ∨ c = '-' ∨
      isDigitCh c = true) :
    jsonWs c = false ∧ pySpace c = false ∧ (c == btick) = false ∧ c ≠ ']' ∧ c ≠ ',' := by
  have hn : c.toNat = 123 ∨ c.toNat = 91 ∨ c.toNat = 34 ∨ c.toNat = 116 ∨ c.toNat = 102 ∨
      c.toNat = 110 ∨ c.toNat = 45 ∨ (48 ≤ c.toNat ∧ c.toNat ≤ 57) := by
    rcases h with rfl | rfl | rfl | rfl | rfl | rfl | rfl | hd
    · left; rfl
    · right; left; rfl
    · right; right; left; rfl
    · right; right; right; left; rfl
    · right; right; right; right; left; rfl
    · right; right; right; right; right; left; rfl
    · right; right; right; right; right; right; left; rfl
    · right; right; right; right; right; right; right
      simpa [isDigitCh] using hd
  refine ⟨jsonWs_false_of c (by omega), pySpace_false_of c (by omega), ?_, ?_, ?_⟩
  · simp only [beq_eq_false_iff_ne]
    exact char_ne_of_toNat (by show c.toNat ≠ 96; omega)
  · exact char_ne_of_toNat (by show c.toNat ≠ 93; omega)
  · exact char_ne_of_toNat (by show c.toNat ≠ 44; omega)

theorem parseVal_dispatch_num (f : Nat) (c : Char) (cs : List Char)
    (h : c = '-' ∨ isDigitCh c = true) :
    parseVal (f + 1) (c :: cs) = (parseNumber (c :: cs)).map (fun p => (.num p.1, p.2)) := by
  have hn : c.toNat = 45 ∨ (48 ≤ c.toNat ∧ c.toNat ≤ 57) := by
    rcases h with rfl | hd
    · left; rfl
    · right; simpa [isDigitCh] using hd
  simp only [parseVal]
  rw [if_neg (fun he => absurd (he ▸ hn) (by decide)),
    if_neg (fun he => absurd (he ▸ hn) (by decide)),
    if_neg (fun he => absurd (he ▸ hn) (by decide)),
    if_neg (fun he => absurd (he ▸ hn) (by decide)),
    if_neg (fun he => absurd (he ▸ hn) (by decide)),
    if_neg (fun he => absurd (he ▸ hn) (by decide))]

/-! ## Parser/encoder roundtrip -/

theorem numGuard_of_stop {v : JsonVal} {rest : List Char} (h : numStopB rest = true) :
    numGuard v rest = true := by
  cases v <;> simp [numGuard, h]

theorem numGuard_container {v : JsonVal} {rest : List Char} (h : isContainer v = true) :
    numGuard v rest = true := by
  cases v <;> simp_all [numGuard, isContainer]

theorem numStopB_encArrTail (tl : JsonArr) (rest : List Char) :
    numStopB (encArrTail tl ++ rest) = true := by
  cases tl <;> rfl

theorem numStopB_encObjTail (kvs : JsonObj) (rest : List Char) :
    numStopB (encObjTail kvs ++ rest) = true := by
  cases kvs <;> rfl

theorem encVal_length_pos (v : JsonVal) : 1 ≤ (encVal v).length := by
  obtain ⟨c, r, he, _, _⟩ := encVal_head v
  simp [he]

theorem encArrTail_length_pos (tl : JsonArr) : 1 ≤ (encArrTail tl).length := by
  cases tl <;> simp [encArrTail]

theorem encObjTail_length_pos (kvs : JsonObj) : 1 ≤ (encObjTail kvs).length := by
  cases kvs <;> simp [encObjTail]

theorem encString_length (k : String) :
    (encString k).length = 2 + (escList k.toList).length := by
  simp [encString]
  omega

theorem objFindLast_of_no_key (k : String) :
    ∀ (o : JsonObj), objHasKey k o = false → objFindLast k o = none
  | .nil, _ => rfl
  | .cons k' v tl, h => by
    have ih := objFindLast_of_no_key k tl
    simp only [objHasKey, Bool.or_eq_false_iff, beq_eq_false_iff_ne] at h
    simp only [objFindLast, ih h.2, if_neg h.1]

theorem objRemove_of_no_key (k : String) :
    ∀ (o : JsonObj), objHasKey k o = false → objRemove k o = o
  | .nil, _ => rfl
  | .cons k' v tl, h => by
    have ih := objRemove_of_no_key k tl
    simp only [objHasKey, Bool.or_eq_false_iff, beq_eq_false_iff_ne] at h
    simp only [objRemove, if_neg h.1, ih h.2]

theorem objDedupGo_wf : ∀ (f : Nat) (o : JsonObj), objLen o ≤ f → wfObj o = true →
    objDedupGo f o = o
  | f, .nil, _, _ => by cases f <;> rfl
  | 0, .cons k v tl, hle, _ => by simp [objLen] at hle
  | f + 1, .cons k v tl, hle, hwf => by
    simp only [objLen] at hle
    simp only [wfObj, Bool.and_eq_true, Bool.not_eq_true'] at hwf
    have hfind := objFindLast_of_no_key k tl hwf.1.1
    have hrem := objRemove_of_no_key k tl hwf.1.1
    simp only [objDedupGo, hfind, hrem, Option.getD_none]
    rw [objDedupGo_wf f tl (by omega) hwf.2]

theorem objDedup_wf {o : JsonObj} (h : wfObj o = true) : objDedup o = o :=
  objDedupGo_wf (objLen o) o le_rfl h

theorem encInt_head (i : Int) :
    ∃ c r, encInt i = c :: r ∧ (c = '-' ∨ isDigitCh c = true) := by
  by_cases hneg : i < 0
  · exact ⟨'-', encNat i.natAbs, by simp [encInt, hneg], Or.inl rfl⟩
  · obtain ⟨c, r, he, hd, _, _, _⟩ := encNat_spec i.natAbs
    exact ⟨c, r, by simp [encInt, hneg, he], Or.inr hd⟩

theorem skipWs_encVal_append (v : JsonVal) (t : List Char) :
    skipWs (encVal v ++ t) = encVal v ++ t := by
  obtain ⟨c, r, hve, hgood, _⟩ := encVal_head v
  obtain ⟨hws, _, _, _, _⟩ := head_char_facts hgood
  rw [hve]
  exact skipWs_cons hws

theorem skipWs_encArrTail_append (tl : JsonArr) (t : List Char) :
    skipWs (encArrTail tl ++ t) = encArrTail tl ++ t := by
  cases tl
  · exact skipWs_cons (by decide)
  · exact skipWs_cons (by decide)

theorem skipWs_encObjTail_append (kvs : JsonObj) (t : List Char) :
    skipWs (encObjTail kvs ++ t) = encObjTail kvs ++ t := by
  cases kvs
  · exact skipWs_cons (by decide)
  · exact skipWs_cons (by decide)

mutual

theorem parseVal_encVal : ∀ (v : JsonVal) (f : Nat) (rest : List Char),
    wfVal v = true → numGuard v rest = true → (encVal v).length < f →
    parseVal f (encVal v ++ rest) = some (v, rest)
  | .null, f, rest, _, _, hf => by
    obtain ⟨g, rfl⟩ : ∃ g, f = g + 1 := ⟨f - 1, by omega⟩
    show parseVal (g + 1) ('n' :: 'u' :: 'l' :: 'l' :: rest) = some (.null, rest)
    simp [parseVal]
  | .bool true, f, rest, _, _, hf => by
    obtain ⟨g, rfl⟩ : ∃ g, f = g + 1 := ⟨f - 1, by omega⟩
    show parseVal (g + 1) ('t' :: 'r' :: 'u' :: 'e' :: rest) = some (.bool true, rest)
    simp [parseVal]
  | .bool false, f, rest, _, _, hf => by
    obtain ⟨g, rfl⟩ : ∃ g, f = g + 1 := ⟨f - 1, by omega⟩
    show parseVal (g + 1) ('f' :: 'a' :: 'l' :: 's' :: 'e' :: rest) = some (.bool false, rest)
    simp [parseVal]
  | .num n, f, rest, _, hnum, hf => by
    obtain ⟨g, rfl⟩ : ∃ g, f = g + 1 := ⟨f - 1, by omega⟩
    obtain ⟨c, r, henc, hcd⟩ := encInt_head n
    have hnum' : numStopB rest = true := hnum
    have hshape : encVal (.num n) ++ rest = c :: (r ++ rest) := by
      show encInt n ++ rest = _
      rw [henc]
      rfl
    rw [hshape, parseVal_dispatch_num g c _ hcd, ← List.cons_append, ← henc]
    show (parseNumber (encInt n ++ rest)).map _ = _
    rw [parseNumber_encInt n rest hnum']
    rfl
  | .str s, f, rest, _, _, hf => by
    obtain ⟨g, rfl⟩ : ∃ g, f = g + 1 := ⟨f - 1, by omega⟩
    have hshape : encVal (.str s) ++ rest = '"' :: (escList s.toList ++ ('"' :: rest)) := by
      show ('"' :: (escList s.toList ++ ['"'])) ++ rest = _
      simp
    rw [hshape]
    simp [parseVal, parseStrBody_escList, mk_toList]
  | .arr .nil, f, rest, _, _, hf => by
    have hlen : (encVal (.arr .nil)).length = 2 := rfl
    obtain ⟨g, rfl⟩ : ∃ g, f = g + 2 := ⟨f - 2, by omega⟩
    show parseVal (g + 1 + 1) ('[' :: ']' :: rest) = some (.arr .nil, rest)
    have hd : parseVal (g + 1 + 1) ('[' :: ']' :: rest) = parseArrStart (g + 1) (']' :: rest) := by
      simp [parseVal]
    rw [hd]
    simp only [parseArrStart]
    rw [skipWs_cons (by decide)]
    rfl
  | .arr (.cons v tl), f, rest, hwf, _, hf => by
    have hlv := encVal_length_pos v
    have hlt := encArrTail_length_pos tl
    have hlen : (encVal (.arr (.cons v tl))).length =
        1 + (encVal v).length + (encArrTail tl).length := by
      show ('[' :: (encVal v ++ encArrTail tl)).length = _
      simp
      omega
    obtain ⟨g, rfl⟩ : ∃ g, f = g + 2 := ⟨f - 2, by omega⟩
    have hwf' : wfVal v = true ∧ wfArr tl = true := by
      have : wfArr (.cons v tl) = true := hwf
      simpa [wfArr] using this
    have hshape : encVal (.arr (.cons v tl)) ++ rest =
        '[' :: (encVal v ++ (encArrTail tl ++ rest)) := by
      show ('[' :: (encVal v ++ encArrTail tl)) ++ rest = _
      simp
    rw [hshape]
    have hd : parseVal (g + 1 + 1) ('[' :: (encVal v ++ (encArrTail tl ++ rest))) =
        parseArrStart (g + 1) (encVal v ++ (encArrTail tl ++ rest)) := by
      simp [parseVal]
    rw [hd]
    obtain ⟨c, r, hve, hgood, _⟩ := encVal_head v
    obtain ⟨hws, _, _, hne_rb, _⟩ := head_char_facts hgood
    have hiv := parseVal_encVal v g (encArrTail tl ++ rest) hwf'.1
      (numGuard_of_stop (numStopB_encArrTail tl rest)) (by omega)
    have hit := parseArrRest_encArrTail tl g rest hwf'.2 (by omega)
    simp only [parseArrStart]
    rw [skipWs_encVal_append]
    have hA : encVal v ++ (encArrTail tl ++ rest) = c :: (r ++ (encArrTail tl ++ rest)) := by
      rw [hve]
      rfl
    rw [hA]
    split
    · next r1 heq =>
      rw [List.cons.injEq] at heq
      exact absurd heq.1 hne_rb
    · rw [← hA]
      simp only [hiv, skipWs_encArrTail_append, hit]
  | .obj .nil, f, rest, _, _, hf => by
    have hlen : (encVal (.obj .nil)).length = 2 := rfl
    obtain ⟨g, rfl⟩ : ∃ g, f = g + 2 := ⟨f - 2, by omega⟩
    show parseVal (g + 1 + 1) ('\x7b' :: '\x7d' :: rest) = some (.obj .nil, rest)
    have hd : parseVal (g + 1 + 1) ('\x7b' :: '\x7d' :: rest) =
        parseObjStart (g + 1) ('\x7d' :: rest) := by
      simp [parseVal]
      rw [skipWs_cons (by decide)]
    rw [hd]
    simp only [parseObjStart]
  | .obj (.cons k v tl), f, rest, hwf, _, hf => by
    have hlv := encVal_length_pos v
    have hlt := encObjTail_length_pos tl
    have hlk := encString_length k
    have hlen : (encVal (.obj (.cons k v tl))).length =
        1 + (encString k).length + 1 + (encVal v).length + (encObjTail tl).length := by
      show ('\x7b' :: (encString k ++ ':' :: (encVal v ++ encObjTail tl))).length = _
      simp
      omega
    obtain ⟨g, rfl⟩ : ∃ g, f = g + 2 := ⟨f - 2, by omega⟩
    have hwfo : wfObj (.cons k v tl) = true := hwf
    have hwf' : objHasKey k tl = false ∧ wfVal v = true ∧ wfObj tl = true := by
      have h2 := hwfo
      simp only [wfObj, Bool.and_eq_true, Bool.not_eq_true'] at h2
      exact ⟨h2.1.1, h2.1.2, h2.2⟩
    have hshape : encVal (.obj (.cons k v tl)) ++ rest =
        '\x7b' :: ('"' :: (escList k.toList ++
          ('"' :: (':' :: (encVal v ++ (encObjTail tl ++ rest)))))) := by
      show ('\x7b' :: (encString k ++ ':' :: (encVal v ++ encObjTail tl))) ++ rest = _
      show '\x7b' :: (('"' :: (escList k.toList ++ ['"']) ++
        ':' :: (encVal v ++ encObjTail tl)) ++ rest) = _
      simp
    rw [hshape]
    have hd : parseVal (g + 1 + 1) ('\x7b' :: ('"' :: (escList k.toList ++
        ('"' :: (':' :: (encVal v ++ (encObjTail tl ++ rest))))))) =
        parseObjStart (g + 1) (skipWs ('"' :: (escList k.toList ++
          ('"' :: (':' :: (encVal v ++ (encObjTail tl ++ rest))))))) := by
      simp [parseVal]
    rw [hd, skipWs_cons (by decide)]
    have hiv := parseVal_encVal v g (encObjTail tl ++ rest) hwf'.2.1
      (numGuard_of_stop (numStopB_encObjTail tl rest)) (by omega)
    have hit := parseObjRest_encObjTail tl g rest hwf'.2.2 (by omega)
    have hsk : skipWs (':' :: (encVal v ++ (encObjTail tl ++ rest))) =
        ':' :: (encVal v ++ (encObjTail tl ++ rest)) := skipWs_cons (by decide)
    simp only [parseObjStart, parseStrBody_escList, hsk, skipWs_encVal_append, hiv,
      skipWs_encObjTail_append, hit, mk_toList]
    rw [objDedup_wf hwfo]

theorem parseArrRest_encArrTail : ∀ (tl : JsonArr) (f : Nat) (rest : List Char),
    wfArr tl = true → (encArrTail tl).length < f →
    parseArrRest f (encArrTail tl ++ rest) = some (tl, rest)
  | .nil, f, rest, _, hf => by
    obtain ⟨g, rfl⟩ : ∃ g, f = g + 1 := ⟨f - 1, by omega⟩
    show parseArrRest (g + 1) (']' :: rest) = some (.nil, rest)
    simp [parseArrRest]
  | .cons v tl, f, rest, hwf, hf => by
    have hlv := encVal_length_pos v
    have hlt := encArrTail_length_pos tl
    have hlen : (encArrTail (.cons v tl)).length =
        1 + (encVal v).length + (encArrTail tl).length := by
      show (',' :: (encVal v ++ encArrTail tl)).length = _
      simp
      omega
    obtain ⟨g, rfl⟩ : ∃ g, f = g + 1 := ⟨f - 1, by omega⟩
    have hwf' : wfVal v = true ∧ wfArr tl = true := by
      have : wfArr (.cons v tl) = true := hwf
      simpa [wfArr] using this
    have hshape : encArrTail (.cons v tl) ++ rest =
        ',' :: (encVal v ++ (encArrTail tl ++ rest)) := by
      show (',' :: (encVal v ++ encArrTail tl)) ++ rest = _
      simp
    rw [hshape]
    have hiv := parseVal_encVal v g (encArrTail tl ++ rest) hwf'.1
      (numGuard_of_stop (numStopB_encArrTail tl rest)) (by omega)
    have hit := parseArrRest_encArrTail tl g rest hwf'.2 (by omega)
    simp only [parseArrRest]
    simp only [skipWs_encVal_append, hiv, skipWs_encArrTail_append, hit]

theorem parseObjRest_encObjTail : ∀ (kvs : JsonObj) (f : Nat) (rest : List Char),
    wfObj kvs = true → (encObjTail kvs).length < f →
    parseObjRest f (encObjTail kvs ++ rest) = some (kvs, rest)
  | .nil, f, rest, _, hf => by
    obtain ⟨g, rfl⟩ : ∃ g, f = g + 1 := ⟨f - 1, by omega⟩
    show parseObjRest (g + 1) ('\x7d' :: rest) = some (.nil, rest)
    simp [parseObjRest]
  | .cons k v tl, f, rest, hwf, hf => by
    have hlv := encVal_length_pos v
    have hlt := encObjTail_length_pos tl
    have hlk := encString_length k
    have hlen : (encObjTail (.cons k v tl)).length =
        1 + (encString k).length + 1 + (encVal v).length + (encObjTail tl).length := by
      show (',' :: (encString k ++ ':' :: (encVal v ++ encObjTail tl))).length = _
      simp
      omega
    obtain ⟨g, rfl⟩ : ∃ g, f = g + 1 := ⟨f - 1, by omega⟩
    have hwf' : wfVal v = true ∧ wfObj tl = true := by
      have : wfObj (.cons k v tl) = true := hwf
      simp only [wfObj, Bool.and_eq_true] at this
      exact ⟨this.1.2, this.2⟩
    have hshape : encObjTail (.cons k v tl) ++ rest =
        ',' :: ('"' :: (escList k.toList ++
          ('"' :: (':' :: (encVal v ++ (encObjTail tl ++ rest)))))) := by
      show (',' :: (encString k ++ ':' :: (encVal v ++ encObjTail tl))) ++ rest = _
      show ',' :: (('"' :: (escList k.toList ++ ['"']) ++
        ':' :: (encVal v ++ encObjTail tl)) ++ rest) = _
      simp
    rw [hshape]
    have hiv := parseVal_encVal v g (encObjTail tl ++ rest) hwf'.1
      (numGuard_of_stop (numStopB_encObjTail tl rest)) (by omega)
    have hit := parseObjRest_encObjTail tl g rest hwf'.2 (by omega)
    have hsk0 : skipWs ('"' :: (escList k.toList ++
        ('"' :: (':' :: (encVal v ++ (encObjTail tl ++ rest)))))) =
        '"' :: (escList k.toList ++ ('"' :: (':' :: (encVal v ++ (encObjTail tl ++ rest))))) :=
      skipWs_cons (by decide)
    have hsk : skipWs (':' :: (encVal v ++ (encObjTail tl ++ rest))) =
        ':' :: (encVal v ++ (encObjTail tl ++ rest)) := skipWs_cons (by decide)
    simp only [parseObjRest, hsk0, parseStrBody_escList, hsk, skipWs_encVal_append, hiv,
      skipWs_encObjTail_append, hit, mk_toList]

end

/-- Roundtrip at the decoder entry point: `raw_decode` on the compact encoding
of a well-formed value followed by arbitrary trailing text returns exactly that
value and leaves the trailing text unconsumed. -/
theorem rawDecode_encVal (v : JsonVal) (t : List Char) (hwf : wfVal v = true)
    (hng : numGuard v t = true) :
    rawDecode (encVal v ++ t) = some (v, t) := by
  unfold rawDecode
  apply parseVal_encVal v _ t hwf hng
  simp
  omega

/-! ## The extraction pipeline on encoded values -/

theorem toList_mk (l : List Char) : (String.mk l).toList = l := rfl

theorem fenceMark_not_prefix {c : Char} {l : List Char} (h : (c == btick) = false) :
    fenceMark.isPrefixOf (c :: l) = false := by
  rw [beq_eq_false_iff_ne] at h
  show ([btick, btick, btick] : List Char).isPrefixOf (c :: l) = false
  simp only [List.isPrefixOf]
  rw [Bool.and_eq_false_iff]
  left
  rw [beq_eq_false_iff_ne]
  exact fun he => h (he.symm)

theorem fenceMark_not_suffix {l : List Char} {c : Char} (hl : l.getLast? = some c)
    (h : (c == btick) = false) : fenceMark.isSuffixOf l = false := by
  show (fenceMark.reverse).isPrefixOf l.reverse = false
  have hrev : l.reverse.head? = some c := by rw [List.head?_reverse]; exact hl
  cases hr : l.reverse with
  | nil => rw [hr] at hrev; simp at hrev
  | cons c' tl =>
    rw [hr] at hrev
    simp only [List.head?_cons, Option.some.injEq] at hrev
    subst hrev
    show ([btick, btick, btick] : List Char).isPrefixOf (c' :: tl) = false
    exact fenceMark_not_prefix h

theorem mem_pyRStrip {t : List Char} {c : Char} (h : c ∈ pyRStrip t) : c ∈ t := by
  unfold pyRStrip at h
  rw [List.mem_reverse] at h
  have := (List.dropWhile_sublist pySpace (l := t.reverse)).mem h
  rwa [List.mem_reverse] at this

theorem btickFree_mem {t : List Char} (h : btickFree t = true) {c : Char} (hc : c ∈ t) :
    (c == btick) = false := by
  simp only [btickFree, List.all_eq_true] at h
  simpa using h c hc

theorem pyStrip_encVal_append (v : JsonVal) (t : List Char) :
    (pyRStrip t ≠ [] ∧ pyStrip (encVal v ++ t) = encVal v ++ pyRStrip t) ∨
    (pyRStrip t = [] ∧ pyStrip (encVal v ++ t) = encVal v) := by
  obtain ⟨c, r, hve, hgood, _⟩ := encVal_head v
  obtain ⟨_, hps, _, _, _⟩ := head_char_facts hgood
  obtain ⟨d, hd, hdps, _⟩ := encVal_getLast v
  by_cases hnil : pyRStrip t = []
  · right
    refine ⟨hnil, ?_⟩
    unfold pyStrip
    rw [pyRStrip_append_of_nil hnil, pyRStrip_no_op (by rw [hd]; simpa using hdps)]
    rw [hve]
    exact pyLStrip_no_op (by simpa [hve] using hps)
  · left
    refine ⟨hnil, ?_⟩
    unfold pyStrip
    rw [pyRStrip_append_of_ne_nil hnil, hve]
    exact pyLStrip_no_op (by simpa using hps)

theorem extract_enc_append (v : JsonVal) (t : List Char)
    (hwf : wfVal v = true) (hcont : isContainer v = true) (hbt : btickFree t = true) :
    extract_first_json_value (String.mk (encVal v ++ t)) = .ok v := by
  obtain ⟨c, r, hve, hgood, hiff⟩ := encVal_head v
  obtain ⟨_, _, hcb, _, _⟩ := head_char_facts hgood
  have hstart : startCh c = true := hiff.mp hcont
  obtain ⟨d, hd, hdps, hdb⟩ := encVal_getLast v
  have hne : encVal v ++ t ≠ [] := by
    rw [hve]
    simp
  -- the stripped text
  obtain ⟨ht, hstrip⟩ | ⟨ht, hstrip⟩ := pyStrip_encVal_append v t
  all_goals
    simp only [extract_first_json_value, toList_mk]
    rw [if_neg hne, hstrip]
  -- general case: trailing text remains
  · have hbt' : btickFree (pyRStrip t) = true := by
      simp only [btickFree, List.all_eq_true]
      intro x hx
      simpa using btickFree_mem hbt (mem_pyRStrip hx)
    have hpre : fenceMark.isPrefixOf (encVal v ++ pyRStrip t) = false := by
      rw [hve]
      exact fenceMark_not_prefix hcb
    have hlast : (encVal v ++ pyRStrip t).getLast? = (pyRStrip t).getLast? := by
      rw [List.getLast?_append]
      cases hg : (pyRStrip t).getLast? with
      | none => exact absurd (List.getLast?_eq_none_iff.mp hg) ht
      | some x => rfl
    obtain ⟨x, hx⟩ : ∃ x, (pyRStrip t).getLast? = some x := by
      cases hg : (pyRStrip t).getLast? with
      | none => exact absurd (List.getLast?_eq_none_iff.mp hg) ht
      | some x => exact ⟨x, rfl⟩
    have hsuf : fenceMark.isSuffixOf (encVal v ++ pyRStrip t) = false := by
      refine fenceMark_not_suffix (by rw [hlast]; exact hx) ?_
      obtain ⟨l1, hl1⟩ := List.getLast?_eq_some_iff.mp hx
      exact btickFree_mem hbt (mem_pyRStrip (by rw [hl1]; simp))
    rw [hpre]
    simp only [Bool.false_eq_true, if_false]
    rw [hsuf]
    simp only [Bool.false_eq_true, if_false]
    have hfind : (encVal v ++ pyRStrip t).findIdx? startCh = some 0 := by
      rw [hve]
      simp [List.findIdx?_cons, hstart]
    rw [hfind]
    simp only [List.drop_zero]
    rw [rawDecode_encVal v (pyRStrip t) hwf (numGuard_container hcont)]
  -- trailing text stripped entirely
  · have hpre : fenceMark.isPrefixOf (encVal v) = false := by
      rw [hve]
      exact fenceMark_not_prefix hcb
    have hsuf : fenceMark.isSuffixOf (encVal v) = false :=
      fenceMark_not_suffix hd hdb
    rw [hpre]
    simp only [Bool.false_eq_true, if_false]
    rw [hsuf]
    simp only [Bool.false_eq_true, if_false]
    have hfind : (encVal v).findIdx? startCh = some 0 := by
      rw [hve]
      simp [List.findIdx?_cons, hstart]
    rw [hfind]
    simp only [List.drop_zero]
    have : rawDecode (encVal v) = some (v, []) := by
      have := rawDecode_encVal v [] hwf (numGuard_container hcont)
      simpa using this
    rw [this]

/-! ## Fence stripping -/

theorem isPrefixOf_append (pat x : List Char) : pat.isPrefixOf (pat ++ x) = true := by
  induction pat with
  | nil => simp [List.isPrefixOf]
  | cons p ps ih => simp [List.isPrefixOf, ih]

theorem replaceFirst_of_prefix (pat rep x : List Char) (h : pat ≠ []) :
    replaceFirst pat rep (pat ++ x) = rep ++ x := by
  cases pat with
  | nil => exact absurd rfl h
  | cons p ps =>
    show replaceFirst (p :: ps) rep (p :: (ps ++ x)) = rep ++ x
    rw [replaceFirst, if_pos (by simpa using isPrefixOf_append (p :: ps) x)]
    have hx : (p :: (ps ++ x)) = (p :: ps) ++ x := rfl
    rw [hx, List.drop_left]

theorem hasPair_cons2 (a b x y : Char) (ys : List Char) :
    hasPair a b (x :: y :: ys) = ((x == a && y == b) || hasPair a b (y :: ys)) := rfl

theorem hasPair_tail {a b x : Char} {xs : List Char} (h : hasPair a b (x :: xs) = false) :
    hasPair a b xs = false := by
  cases xs with
  | nil => rfl
  | cons y ys =>
    rw [hasPair_cons2] at h
    exact (Bool.or_eq_false_iff.mp h).2

theorem hasPair_bt_j_fence : ∀ (X : List Char), btickFree X = true →
    hasPair btick 'j' (X ++ '\n' :: fenceMark) = false
  | [], _ => by decide
  | x :: xs, h => by
    have hx : (x == btick) = false := btickFree_mem h (List.mem_cons_self x xs)
    have hxs : btickFree xs = true := by
      simp only [btickFree, List.all_cons, Bool.and_eq_true] at h
      exact h.2
    have htail := hasPair_bt_j_fence xs hxs
    rw [List.cons_append]
    cases hxx : xs ++ '\n' :: fenceMark with
    | nil => exact absurd hxx (by simp)
    | cons y ys =>
      rw [hxx] at htail
      rw [hasPair_cons2]
      simp [hx, htail]

theorem hasPair_fence_wrap (X : List Char) (hX : btickFree X = true) :
    hasPair btick 'j' (btick :: btick :: btick :: '\n' :: (X ++ '\n' :: fenceMark)) = false := by
  have htail := hasPair_bt_j_fence X hX
  cases hxx : X ++ '\n' :: fenceMark with
  | nil => exact absurd hxx (by simp)
  | cons y ys =>
    rw [hxx] at htail
    have hb1 : (btick == 'j') = false := by decide
    have hb2 : (('\n' : Char) == btick) = false := by decide
    have hb3 : ((btick : Char) == btick) = true := by decide
    have hb4 : (('\n' : Char) == 'j') = false := by decide
    rw [hasPair_cons2, hasPair_cons2, hasPair_cons2, hasPair_cons2]
    simp [hb1, hb2, hb3, hb4, htail]

theorem replaceFirst_fj_no_pair : ∀ (l : List Char), hasPair btick 'j' l = false →
    replaceFirst fenceJsonMark fenceMark l = l
  | [], _ => rfl
  | c :: cs, h => by
    have hnp : fenceJsonMark.isPrefixOf (c :: cs) = false := by
      by_contra hcon
      rw [Bool.not_eq_false] at hcon
      rcases List.isPrefixOf_iff_prefix.mp hcon with ⟨t, ht⟩
      rw [← ht] at h
      rw [show fenceJsonMark ++ t = btick :: btick :: btick :: 'j' :: 's' :: 'o' :: 'n' :: t
        from rfl] at h
      rw [hasPair_cons2, hasPair_cons2, hasPair_cons2] at h
      simp at h
    rw [replaceFirst, hnp]
    simp only [Bool.false_eq_true, if_false]
    rw [replaceFirst_fj_no_pair cs (hasPair_tail h)]

theorem getLast_fence (a : List Char) : (a ++ '\n' :: fenceMark).getLast? = some btick := by
  rw [List.getLast?_append]
  rfl

theorem getLast_fence2 (a b : List Char) :
    (a ++ '\n' :: (b ++ '\n' :: fenceMark)).getLast? = some btick := by
  have h1 : ('\n' :: (b ++ '\n' :: fenceMark)).getLast? = some btick := by
    rw [show ('\n' :: (b ++ '\n' :: fenceMark)) = ('\n' :: b) ++ '\n' :: fenceMark
      from by simp, getLast_fence]
  rw [List.getLast?_append, h1]
  rfl

theorem pyRStrip_encVal_newline (v : JsonVal) : pyRStrip (encVal v ++ ['\n']) = encVal v := by
  obtain ⟨d, hd, hdps, _⟩ := encVal_getLast v
  rw [pyRStrip_append_of_nil (by decide)]
  exact pyRStrip_no_op (by rw [hd]; simpa using hdps)

theorem pyLStrip_nl_encVal (v : JsonVal) (t : List Char) :
    pyLStrip ('\n' :: (encVal v ++ t)) = encVal v ++ t := by
  obtain ⟨c, r, hve, hgood, _⟩ := encVal_head v
  obtain ⟨_, hps, _, _, _⟩ := head_char_facts hgood
  have h1 : pySpace '\n' = true := by decide
  rw [hve]
  simp [pyLStrip, List.dropWhile_cons, h1, hps]

theorem fence_body_suffix (v : JsonVal) :
    fenceMark.isSuffixOf (encVal v ++ '\n' :: fenceMark) = true := by
  rw [List.isSuffixOf_iff_suffix]
  exact ⟨encVal v ++ ['\n'], by simp⟩

theorem fence_body_take (v : JsonVal) :
    (encVal v ++ '\n' :: fenceMark).take ((encVal v ++ '\n' :: fenceMark).length - 3) =
      encVal v ++ ['\n'] := by
  have hlen : (encVal v ++ '\n' :: fenceMark).length - 3 = (encVal v ++ ['\n']).length := by
    simp [fenceMark]
  rw [hlen, show encVal v ++ '\n' :: fenceMark = (encVal v ++ ['\n']) ++ fenceMark by simp,
    List.take_left]

theorem fence_body_extracts (v : JsonVal) (hwf : wfVal v = true)
    (hcont : isContainer v = true) :
    (match (pyRStrip ((encVal v ++ '\n' :: fenceMark).take
        ((encVal v ++ '\n' :: fenceMark).length - 3))).findIdx? startCh with
     | none => (Except.error "no JSON start found" : Except String JsonVal)
     | some i =>
       match rawDecode ((pyRStrip ((encVal v ++ '\n' :: fenceMark).take
          ((encVal v ++ '\n' :: fenceMark).length - 3))).drop i) with
       | some (w, _) => .ok w
       | none => .error "Expecting value") = .ok v := by
  obtain ⟨c, r, hve, hgood, hiff⟩ := encVal_head v
  have hstart : startCh c = true := hiff.mp hcont
  rw [fence_body_take, pyRStrip_encVal_newline]
  have hfind : (encVal v).findIdx? startCh = some 0 := by
    rw [hve]
    simp [List.findIdx?_cons, hstart]
  rw [hfind]
  simp only [List.drop_zero]
  have hrd : rawDecode (encVal v) = some (v, []) := by
    have := rawDecode_encVal v [] hwf (numGuard_container hcont)
    simpa using this
  rw [hrd]

theorem extract_fenced_tagged (v : JsonVal) (hwf : wfVal v = true)
    (hcont : isContainer v = true) :
    extract_first_json_value
      (String.mk (fenceJsonMark ++ '\n' :: (encVal v ++ '\n' :: fenceMark))) = .ok v := by
  have hne : fenceJsonMark ++ '\n' :: (encVal v ++ '\n' :: fenceMark) ≠ [] := by simp
  have hstrip : pyStrip (fenceJsonMark ++ '\n' :: (encVal v ++ '\n' :: fenceMark)) =
      fenceJsonMark ++ '\n' :: (encVal v ++ '\n' :: fenceMark) := by
    apply pyStrip_no_op
    · rw [show (fenceJsonMark ++ '\n' :: (encVal v ++ '\n' :: fenceMark)).head? = some btick
        from rfl]
      decide
    · rw [getLast_fence2]
      decide
  have hpre : fenceMark.isPrefixOf (fenceJsonMark ++ '\n' :: (encVal v ++ '\n' :: fenceMark)) =
      true := by
    show List.isPrefixOf [btick, btick, btick]
      (btick :: btick :: btick :: 'j' :: 's' :: 'o' :: 'n' :: ('\n' :: (encVal v ++ '\n' :: fenceMark))) = true
    simp [List.isPrefixOf]
  have hrepl : replaceFirst fenceJsonMark fenceMark
      (fenceJsonMark ++ '\n' :: (encVal v ++ '\n' :: fenceMark)) =
      fenceMark ++ '\n' :: (encVal v ++ '\n' :: fenceMark) :=
    replaceFirst_of_prefix fenceJsonMark fenceMark _ (by simp [fenceJsonMark])
  simp only [extract_first_json_value, toList_mk]
  rw [if_neg hne, hstrip, if_pos hpre, hrepl]
  rw [show (fenceMark ++ '\n' :: (encVal v ++ '\n' :: fenceMark)).drop 3 =
    '\n' :: (encVal v ++ '\n' :: fenceMark) from rfl]
  rw [pyLStrip_nl_encVal, if_pos (fence_body_suffix v)]
  exact fence_body_extracts v hwf hcont

theorem extract_fenced_bare (v : JsonVal) (hwf : wfVal v = true)
    (hcont : isContainer v = true) (hbt : btickFree (encVal v) = true) :
    extract_first_json_value
      (String.mk (fenceMark ++ '\n' :: (encVal v ++ '\n' :: fenceMark))) = .ok v := by
  have hne : fenceMark ++ '\n' :: (encVal v ++ '\n' :: fenceMark) ≠ [] := by simp
  have hstrip : pyStrip (fenceMark ++ '\n' :: (encVal v ++ '\n' :: fenceMark)) =
      fenceMark ++ '\n' :: (encVal v ++ '\n' :: fenceMark) := by
    apply pyStrip_no_op
    · rw [show (fenceMark ++ '\n' :: (encVal v ++ '\n' :: fenceMark)).head? = some btick
        from rfl]
      decide
    · rw [getLast_fence2]
      decide
  have hpre : fenceMark.isPrefixOf (fenceMark ++ '\n' :: (encVal v ++ '\n' :: fenceMark)) =
      true := isPrefixOf_append fenceMark _
  have hrepl : replaceFirst fenceJsonMark fenceMark
      (fenceMark ++ '\n' :: (encVal v ++ '\n' :: fenceMark)) =
      fenceMark ++ '\n' :: (encVal v ++ '\n' :: fenceMark) :=
    replaceFirst_fj_no_pair _ (hasPair_fence_wrap (encVal v) hbt)
  simp only [extract_first_json_value, toList_mk]
  rw [if_neg hne, hstrip, if_pos hpre, hrepl]
  rw [show (fenceMark ++ '\n' :: (encVal v ++ '\n' :: fenceMark)).drop 3 =
    '\n' :: (encVal v ++ '\n' :: fenceMark) from rfl]
  rw [pyLStrip_nl_encVal, if_pos (fence_body_suffix v)]
  exact fence_body_extracts v hwf hcont

/-! ## Failure when no JSON start exists -/

theorem braceFree_mem {l : List Char} (h : braceFree l = true) {c : Char} (hc : c ∈ l) :
    startCh c = false := by
  simp only [braceFree, List.all_eq_true] at h
  simpa using h c hc

theorem braceFree_of_mem {l : List Char} (h : ∀ c ∈ l, startCh c = false) :
    braceFree l = true := by
  simp only [braceFree, List.all_eq_true]
  intro c hc
  simpa using h c hc

theorem findIdx?_none_of_braceFree {l : List Char} (h : braceFree l = true) :
    l.findIdx? startCh = none := by
  rw [List.findIdx?_eq_none_iff]
  intro x hx
  simpa using braceFree_mem h hx

theorem mem_pyLStrip {l : List Char} {c : Char} (h : c ∈ pyLStrip l) : c ∈ l :=
  (List.dropWhile_sublist pySpace (l := l)).mem h

theorem mem_pyStrip {l : List Char} {c : Char} (h : c ∈ pyStrip l) : c ∈ l :=
  mem_pyRStrip (mem_pyLStrip h)

theorem mem_replaceFirst {pat rep : List Char} :
    ∀ {l : List Char} {c : Char}, c ∈ replaceFirst pat rep l → c ∈ rep ∨ c ∈ l := by
  intro l
  induction l with
  | nil => intro c hc; simp [replaceFirst] at hc
  | cons x xs ih =>
    intro c hc
    simp only [replaceFirst] at hc
    split at hc
    · rcases List.mem_append.mp hc with hm | hm
      · exact Or.inl hm
      · exact Or.inr (List.mem_of_mem_drop hm)
    · rcases List.mem_cons.mp hc with rfl | hm
      · exact Or.inr (List.mem_cons_self c xs)
      · rcases ih hm with h1 | h1
        · exact Or.inl h1
        · exact Or.inr (List.mem_cons_of_mem x h1)

theorem extract_no_start (s : String) (hne : s.toList ≠ [])
    (hb : braceFree s.toList = true) :
    extract_first_json_value s = .error "no JSON start found" := by
  simp only [extract_first_json_value]
  rw [if_neg hne, findIdx?_none_of_braceFree ?hb2]
  case hb2 =>
    apply braceFree_of_mem
    intro c hc
    split at hc
    case _ =>
      have hc2 : c ∈ pyLStrip ((replaceFirst fenceJsonMark fenceMark (pyStrip s.toList)).drop 3) := by
        split at hc
        · exact List.mem_of_mem_take (mem_pyRStrip hc)
        · exact hc
      have hc4 := List.mem_of_mem_drop (mem_pyLStrip hc2)
      rcases mem_replaceFirst hc4 with hm | hm
      · have hcb : c = btick := by
          simpa [fenceMark] using hm
        subst hcb; rfl
      · exact braceFree_mem hb (mem_pyStrip hm)
    case _ =>
      have hc2 : c ∈ pyStrip s.toList := by
        split at hc
        · exact List.mem_of_mem_take (mem_pyRStrip hc)
        · exact hc
      exact braceFree_mem hb (mem_pyStrip hc2)


/-! ## The URL normalizer -/

theorem normLoop_step {l : List Char} {c : Char} (h : l.getLast? = some c)
    (hp : urlPunct c = true) : normLoop l = normLoop l.dropLast := by
  obtain ⟨l', rfl⟩ := List.getLast?_eq_some_iff.mp h
  unfold normLoop
  simp [hp, List.dropWhile_cons, List.dropLast_concat]

theorem normLoop_stop {l : List Char} (h : l.getLast?.all (fun c => !urlPunct c) = true) :
    normLoop l = l := by
  unfold normLoop
  rw [head?_all_dropWhile_eq (by rwa [List.head?_reverse]), List.reverse_reverse]

theorem dropWhile_head? {p : Char → Bool} : ∀ {l : List Char} {c : Char},
    (l.dropWhile p).head? = some c → p c = false := by
  intro l
  induction l with
  | nil => intro c h; simp at h
  | cons x xs ih =>
    intro c h
    rw [List.dropWhile_cons] at h
    split at h
    · exact ih h
    · next hpx =>
      simp only [List.head?_cons, Option.some.injEq] at h
      subst h
      exact Bool.eq_false_iff.mpr hpx

theorem pyRStrip_getLast {l : List Char} {c : Char} (h : (pyRStrip l).getLast? = some c) :
    pySpace c = false := by
  unfold pyRStrip at h
  rw [List.getLast?_reverse] at h
  exact dropWhile_head? h

theorem pyLStrip_getLast {l : List Char} {c : Char} (h : (pyLStrip l).getLast? = some c) :
    l.getLast? = some c := by
  obtain ⟨t, ht⟩ := (List.dropWhile_suffix (p := pySpace) (l := l))
  unfold pyLStrip at h
  rw [← ht, List.getLast?_append, h]
  rfl

theorem pyStrip_getLast {l : List Char} {c : Char} (h : (pyStrip l).getLast? = some c) :
    pySpace c = false := by
  unfold pyStrip at h
  exact pyRStrip_getLast (pyLStrip_getLast h)

theorem lastNonWs_normalize_url (s : String) : lastNonWs (normalize_url s) = true := by
  unfold lastNonWs normalize_url
  rw [toList_mk]
  cases hg : (pyStrip (normLoop (pyStrip s.toList))).getLast? with
  | none => rfl
  | some c =>
    have := pyStrip_getLast hg
    simp [this]

theorem sanitizeObj_cons_eq (k : String) (v : JsonVal) (tl : JsonObj) :
    sanitizeObj (.cons k v tl) =
      .cons k
        (if k = "url" then
          match v with
          | .str s => .str (normalize_url s)
          | w => sanitize_links w
        else sanitize_links v)
        (sanitizeObj tl) := by cases v <;> simp [sanitizeObj]

theorem urlsTrimObj_cons_eq (k : String) (w : JsonVal) (tl : JsonObj) :
    urlsTrimObj (.cons k w tl) =
      ((if k = "url" then
        match w with
        | .str s => lastNonWs s
        | w' => urlsTrimVal w'
      else urlsTrimVal w) && urlsTrimObj tl) := by cases w <;> simp [urlsTrimObj]

theorem urlsTrim_sanitize_all :
    ∀ n : Nat,
      (∀ v : JsonVal, sizeOf v ≤ n → urlsTrimVal (sanitize_links v) = true) ∧
      (∀ xs : JsonArr, sizeOf xs ≤ n → urlsTrimArr (sanitizeArr xs) = true) ∧
      (∀ o : JsonObj, sizeOf o ≤ n → urlsTrimObj (sanitizeObj o) = true) := by
  intro n
  induction n with
  | zero =>
    refine ⟨fun v hv => ?_, fun xs hx => ?_, fun o ho => ?_⟩
    · cases v <;> simp at hv
    · cases xs <;> simp at hx
    · cases o <;> simp at ho
  | succ n ih =>
    obtain ⟨ihv, iha, iho⟩ := ih
    refine ⟨fun v hv => ?_, fun xs hx => ?_, fun o ho => ?_⟩
    · cases v with
      | null => rfl
      | bool b => rfl
      | num m => rfl
      | str s => rfl
      | arr xs =>
        have h1 := iha xs (by simp at hv; omega)
        simp [sanitize_links, urlsTrimVal, h1]
      | obj o =>
        have h1 := iho o (by simp at hv; omega)
        simp [sanitize_links, urlsTrimVal, h1]
    · cases xs with
      | nil => rfl
      | cons v tl =>
        have h1 := ihv v (by simp at hx; omega)
        have h2 := iha tl (by simp at hx; omega)
        simp [sanitizeArr, urlsTrimArr, h1, h2]
    · cases o with
      | nil => rfl
      | cons k v tl =>
        have h2 := iho tl (by simp at ho; omega)
        have h1 := ihv v (by simp at ho; omega)
        rw [sanitizeObj_cons_eq, urlsTrimObj_cons_eq, h2, Bool.and_true]
        by_cases hk : k = "url"
        · subst hk
          simp only [if_pos rfl]
          cases v with
          | str s => exact lastNonWs_normalize_url s
          | null => rfl
          | bool b => rfl
          | num m => rfl
          | arr ys =>
            have h3 := iha ys (by simp at ho; omega)
            simpa [sanitize_links, urlsTrimVal] using h3
          | obj o2 =>
            have h3 := iho o2 (by simp at ho; omega)
            simpa [sanitize_links, urlsTrimVal] using h3
        · simp only [if_neg hk]
          exact h1

theorem sanitize_links_urlsTrim (v : JsonVal) : urlsTrimVal (sanitize_links v) = true :=
  (urlsTrim_sanitize_all (sizeOf v)).1 v (le_refl _)

/-! ## Idempotence of the sanitization pass -/

theorem normLoop_getLast {l : List Char} {c : Char} (h : (normLoop l).getLast? = some c) :
    urlPunct c = false := by
  unfold normLoop at h
  rw [List.getLast?_reverse] at h
  exact dropWhile_head? h

theorem mem_normLoop {l : List Char} {c : Char} (h : c ∈ normLoop l) : c ∈ l := by
  unfold normLoop at h
  rw [List.mem_reverse] at h
  have := (List.dropWhile_sublist urlPunct (l := l.reverse)).mem h
  rwa [List.mem_reverse] at this

theorem pyStrip_no_op_of_all {l : List Char} (h : ∀ c ∈ l, pySpace c = false) :
    pyStrip l = l := by
  apply pyStrip_no_op
  · cases l with
    | nil => rfl
    | cons x xs => simpa using h x (List.mem_cons_self x xs)
  · cases hg : l.getLast? with
    | none => rfl
    | some c =>
      obtain ⟨t, ht⟩ := List.getLast?_eq_some_iff.mp hg
      have hm : c ∈ l := by rw [ht]; simp
      simpa using h c hm

theorem wsFreeStr_mem {s : String} (h : wsFreeStr s = true) {c : Char}
    (hc : c ∈ s.toList) : pySpace c = false := by
  simp only [wsFreeStr, List.all_eq_true] at h
  simpa using h c hc

theorem normLoop_idem (l : List Char) : normLoop (normLoop l) = normLoop l := by
  apply normLoop_stop
  cases hg : (normLoop l).getLast? with
  | none => rfl
  | some c => simpa using normLoop_getLast hg

theorem normalize_url_fix {s : String} (h : wsFreeStr s = true) :
    normalize_url (normalize_url s) = normalize_url s := by
  have h1 : pyStrip s.toList = s.toList :=
    pyStrip_no_op_of_all (fun c hc => wsFreeStr_mem h hc)
  have h2 : pyStrip (normLoop s.toList) = normLoop s.toList :=
    pyStrip_no_op_of_all (fun c hc => wsFreeStr_mem h (mem_normLoop hc))
  simp only [normalize_url, toList_mk, h1, h2, normLoop_idem]

theorem urlsOkObj_cons_eq (k : String) (w : JsonVal) (tl : JsonObj) :
    urlsOkObj (.cons k w tl) =
      ((if k = "url" then
        match w with
        | .str s => wsFreeStr s
        | w' => urlsOkVal w'
      else urlsOkVal w) && urlsOkObj tl) := by
  cases w <;> simp [urlsOkObj]

theorem wfObj_cons_eq (k : String) (w : JsonVal) (tl : JsonObj) :
    wfObj (.cons k w tl) = (!objHasKey k tl && wfVal w && wfObj tl) := by
  rw [wfObj]

theorem objHasKey_sanitizeObj (k : String) : ∀ o : JsonObj,
    objHasKey k (sanitizeObj o) = objHasKey k o
  | .nil => rfl
  | .cons k' v tl => by
    have ih := objHasKey_sanitizeObj k tl
    rw [sanitizeObj_cons_eq]
    simp [objHasKey, ih]

theorem wf_sanitize_all :
    ∀ n : Nat,
      (∀ v : JsonVal, sizeOf v ≤ n → wfVal (sanitize_links v) = wfVal v) ∧
      (∀ xs : JsonArr, sizeOf xs ≤ n → wfArr (sanitizeArr xs) = wfArr xs) ∧
      (∀ o : JsonObj, sizeOf o ≤ n → wfObj (sanitizeObj o) = wfObj o) := by
  intro n
  induction n with
  | zero =>
    refine ⟨fun v hv => ?_, fun xs hx => ?_, fun o ho => ?_⟩
    · cases v <;> simp at hv
    · cases xs <;> simp at hx
    · cases o <;> simp at ho
  | succ n ih =>
    obtain ⟨ihv, iha, iho⟩ := ih
    refine ⟨fun v hv => ?_, fun xs hx => ?_, fun o ho => ?_⟩
    · cases v with
      | null => rfl
      | bool b => rfl
      | num m => rfl
      | str s => rfl
      | arr xs =>
        have h1 := iha xs (by simp at hv; omega)
        simp [sanitize_links, wfVal, h1]
      | obj o =>
        have h1 := iho o (by simp at hv; omega)
        simp [sanitize_links, wfVal, h1]
    · cases xs with
      | nil => rfl
      | cons v tl =>
        have h1 := ihv v (by simp at hx; omega)
        have h2 := iha tl (by simp at hx; omega)
        simp [sanitizeArr, wfArr, h1, h2]
    · cases o with
      | nil => rfl
      | cons k v tl =>
        have h2 := iho tl (by simp at ho; omega)
        have h1 := ihv v (by simp at ho; omega)
        rw [sanitizeObj_cons_eq, wfObj_cons_eq, wfObj_cons_eq, h2, objHasKey_sanitizeObj]
        by_cases hk : k = "url"
        · subst hk
          simp only [reduceIte]
          cases v with
          | str s => rfl
          | null => rfl
          | bool b => rfl
          | num m => rfl
          | arr ys =>
            have h3 := iha ys (by simp at ho; omega)
            simp [sanitize_links, wfVal, h3]
          | obj o2 =>
            have h3 := iho o2 (by simp at ho; omega)
            simp [sanitize_links, wfVal, h3]
        · simp only [if_neg hk]
          rw [h1]

theorem wfVal_sanitize (v : JsonVal) : wfVal (sanitize_links v) = wfVal v :=
  (wf_sanitize_all (sizeOf v)).1 v (le_refl _)

theorem isContainer_sanitize (v : JsonVal) :
    isContainer (sanitize_links v) = isContainer v := by
  cases v <;> simp [sanitize_links, isContainer]

theorem sanitize_idem_all :
    ∀ n : Nat,
      (∀ v : JsonVal, sizeOf v ≤ n → urlsOkVal v = true →
        sanitize_links (sanitize_links v) = sanitize_links v) ∧
      (∀ xs : JsonArr, sizeOf xs ≤ n → urlsOkArr xs = true →
        sanitizeArr (sanitizeArr xs) = sanitizeArr xs) ∧
      (∀ o : JsonObj, sizeOf o ≤ n → urlsOkObj o = true →
        sanitizeObj (sanitizeObj o) = sanitizeObj o) := by
  intro n
  induction n with
  | zero =>
    refine ⟨fun v hv => ?_, fun xs hx => ?_, fun o ho => ?_⟩
    · cases v <;> simp at hv
    · cases xs <;> simp at hx
    · cases o <;> simp at ho
  | succ n ih =>
    obtain ⟨ihv, iha, iho⟩ := ih
    refine ⟨fun v hv hu => ?_, fun xs hx hu => ?_, fun o ho hu => ?_⟩
    · cases v with
      | null => rfl
      | bool b => rfl
      | num m => rfl
      | str s => rfl
      | arr xs =>
        have h1 := iha xs (by simp at hv; omega) (by simpa [urlsOkVal] using hu)
        simp [sanitize_links, h1]
      | obj o =>
        have h1 := iho o (by simp at hv; omega) (by simpa [urlsOkVal] using hu)
        simp [sanitize_links, h1]
    · cases xs with
      | nil => rfl
      | cons v tl =>
        rw [urlsOkArr, Bool.and_eq_true] at hu
        have h1 := ihv v (by simp at hx; omega) hu.1
        have h2 := iha tl (by simp at hx; omega) hu.2
        simp [sanitizeArr, h1, h2]
    · cases o with
      | nil => rfl
      | cons k v tl =>
        rw [urlsOkObj_cons_eq, Bool.and_eq_true] at hu
        have h2 := iho tl (by simp at ho; omega) hu.2
        rw [sanitizeObj_cons_eq, sanitizeObj_cons_eq, h2]
        by_cases hk : k = "url"
        · subst hk
          simp only [reduceIte] at hu ⊢
          cases v with
          | str s =>
            have hfix := normalize_url_fix (show wsFreeStr s = true by simpa using hu.1)
            show JsonObj.cons "url" (JsonVal.str (normalize_url (normalize_url s)))
                (sanitizeObj tl) =
              JsonObj.cons "url" (JsonVal.str (normalize_url s)) (sanitizeObj tl)
            rw [hfix]
          | null => rfl
          | bool b => rfl
          | num m => rfl
          | arr ys =>
            have h3 := iha ys (by simp at ho; omega) (by simpa [urlsOkVal] using hu.1)
            simp [sanitize_links, h3]
          | obj o2 =>
            have h3 := iho o2 (by simp at ho; omega) (by simpa [urlsOkVal] using hu.1)
            simp [sanitize_links, h3]
        · simp only [if_neg hk] at hu ⊢
          have h1 := ihv v (by simp at ho; omega) hu.1
          rw [h1]

theorem sanitize_links_idem {v : JsonVal} (hu : urlsOkVal v = true) :
    sanitize_links (sanitize_links v) = sanitize_links v :=
  (sanitize_idem_all (sizeOf v)).1 v (le_refl _) hu

theorem pyStrip_encVal (v : JsonVal) : pyStrip (encVal v) = encVal v := by
  obtain ⟨c, r, hve, hgood, _⟩ := encVal_head v
  obtain ⟨_, hps, _, _, _⟩ := head_char_facts hgood
  obtain ⟨d, hd, hdps, _⟩ := encVal_getLast v
  apply pyStrip_no_op
  · rw [hve]
    simpa using hps
  · rw [hd]
    simpa using hdps

theorem extract_enc (v : JsonVal) (hwf : wfVal v = true) (hcont : isContainer v = true) :
    extract_first_json_value (String.mk (encVal v)) = .ok v := by
  have := extract_enc_append v [] hwf hcont rfl
  simpa using this

theorem sanitize_json_str_enc (v : JsonVal) (hwf : wfVal v = true)
    (hcont : isContainer v = true) :
    sanitize_json_str (String.mk (encVal v)) = String.mk (encVal (sanitize_links v)) := by
  unfold sanitize_json_str
  rw [toList_mk, pyStrip_encVal]
  have hne : encVal v ≠ [] := by
    obtain ⟨c, r, hve, _, _⟩ := encVal_head v
    rw [hve]
    simp
  rw [if_neg hne, extract_enc v hwf hcont]

/-! ## The recency filter -/

theorem processEntry_drop (now : Instant) (db : Int) (e : FeedEntry) (d : DateYMD)
    (hp : parseDate10 ((e.published.getD "").toList.take 10) = some d)
    (hlt : dateMidnightSec d < instantSec now - db * 86400) :
    processEntry now db e = none := by
  simp only [processEntry]
  rw [hp]
  simp [hlt]

theorem processEntry_keep (now : Instant) (db : Int) (e : FeedEntry) (d : DateYMD)
    (hp : parseDate10 ((e.published.getD "").toList.take 10) = some d)
    (hge : ¬ dateMidnightSec d < instantSec now - db * 86400) :
    processEntry now db e =
      some { title := String.mk (pyStrip (e.title.getD "").toList), authors := e.authors,
             year := d.year, venue := "arXiv", url := e.link.getD "",
             summary := String.mk (pyStrip (e.summary.getD "").toList) } := by
  simp only [processEntry]
  rw [hp]
  simp [hge]

theorem processEntry_fallback (now : Instant) (db : Int) (e : FeedEntry)
    (hp : parseDate10 ((e.published.getD "").toList.take 10) = none) :
    processEntry now db e =
      some { title := String.mk (pyStrip (e.title.getD "").toList), authors := e.authors,
             year := now.date.year, venue := "arXiv", url := e.link.getD "",
             summary := String.mk (pyStrip (e.summary.getD "").toList) } := by
  simp only [processEntry]
  rw [hp]

theorem processEntry_eq_none {now : Instant} {db : Int} {e : FeedEntry}
    (h : processEntry now db e = none) :
    ∃ d, parseDate10 ((e.published.getD "").toList.take 10) = some d ∧
      dateMidnightSec d < instantSec now - db * 86400 := by
  cases hp : parseDate10 ((e.published.getD "").toList.take 10) with
  | none => rw [processEntry_fallback now db e hp] at h; simp at h
  | some d =>
    by_cases hlt : dateMidnightSec d < instantSec now - db * 86400
    · exact ⟨d, rfl, hlt⟩
    · rw [processEntry_keep now db e d hp hlt] at h
      simp at h

/-! ## State updates and the hooks' frame -/

theorem stGet_stSet_self : ∀ (st : StateMap) (k : String) (v : JsonVal),
    stGet (stSet st k v) k = some v := by
  intro st
  induction st with
  | nil => intro k v; simp [stSet, stGet]
  | cons e tl ih =>
    intro k v
    obtain ⟨k', w⟩ := e
    by_cases h : k' = k
    · simp [stSet, stGet, h]
    · simp [stSet, stGet, h, ih]

theorem stGet_stSet_ne : ∀ (st : StateMap) (k k' : String) (v : JsonVal), k' ≠ k →
    stGet (stSet st k v) k' = stGet st k' := by
  intro st
  induction st with
  | nil =>
    intro k k' v h
    simp [stSet, stGet, Ne.symm h]
  | cons e tl ih =>
    intro k k' v h
    obtain ⟨k2, w⟩ := e
    by_cases h2 : k2 = k
    · subst h2
      simp [stSet, stGet, Ne.symm h]
    · by_cases h3 : k2 = k'
      · subst h3
        simp [stSet, stGet, h2, h]
      · simp [stSet, stGet, h2, h3, ih k k' v h]

theorem stSet_stSet_self : ∀ (st : StateMap) (k : String) (a b : JsonVal),
    stSet (stSet st k a) k b = stSet st k b := by
  intro st
  induction st with
  | nil => intro k a b; simp [stSet]
  | cons e tl ih =>
    intro k a b
    obtain ⟨k', w⟩ := e
    by_cases h : k' = k
    · simp [stSet, h]
    · simp [stSet, h, ih]

theorem runStage_sanitize (gen : String → String) (sp : StageSpec)
    (hcb : sp.callback = some after_agent_sanitize_json) (hne : sp.outKey ≠ "")
    (st : StateMap) :
    runStage gen sp st = stSet st sp.outKey (.str (sanitize_json_str (gen sp.name))) := by
  simp only [runStage]
  rw [hcb]
  simp only [after_agent_sanitize_json]
  rw [if_neg hne, stGet_stSet_self]
  simp [stSet_stSet_self]

theorem runParallel_three (gen : String → String) (s1 s2 s3 : StageSpec) (st : StateMap) :
    runParallel gen [s1, s2, s3] st = runStage gen s3 (runStage gen s2 (runStage gen s1 st)) :=
  rfl

/-! ## The claims -/

/-- C1: `sanitize_json_str` never fails past its boundary: a non-string value
passes through `sanitize_json_py` unchanged, a blank string passes through
unchanged, any extraction failure returns the original string unchanged, and in
particular the string `not json at all` comes back unchanged. -/
theorem C1_sanitize_json_total :
    (∀ v : JsonVal, (∀ s, v ≠ .str s) → sanitize_json_py v = v) ∧
    (∀ s : String, pyStrip s.toList = [] → sanitize_json_str s = s) ∧
    (∀ (s : String) (e : String), extract_first_json_value s = .error e →
      sanitize_json_str s = s) ∧
    sanitize_json_str "not json at all" = "not json at all" := by
  refine ⟨?_, ?_, ?_, by decide⟩
  · intro v hv
    cases v with
    | str s => exact absurd rfl (hv s)
    | null => rfl
    | bool b => rfl
    | num n => rfl
    | arr xs => rfl
    | obj o => rfl
  · intro s h
    unfold sanitize_json_str
    rw [if_pos h]
  · intro s e h
    unfold sanitize_json_str
    by_cases hb : pyStrip s.toList = []
    · rw [if_pos hb]
    · rw [if_neg hb, h]

/-- Witness for C1 at concrete inputs: a number passes through, and a blank
string passes through. -/
theorem C1_witness :
    sanitize_json_py (JsonVal.num 3) = JsonVal.num 3 ∧ sanitize_json_str " " = " " :=
  ⟨C1_sanitize_json_total.1 (.num 3) (fun s h => JsonVal.noConfusion h),
   C1_sanitize_json_total.2.1 " " (by decide)⟩

/-- C2: on an encoded container value followed by arbitrary backtick-free
trailing text, `extract_first_json_value` returns exactly that first value and
discards the trailing content; concatenated duplicate objects yield the first
object; and text with no `\x7b` or `[` at all fails with the
`no JSON start found` error. -/
theorem C2_extract_first_value :
    (∀ (v : JsonVal) (t : List Char), wfVal v = true → isContainer v = true →
      btickFree t = true →
      extract_first_json_value (String.mk (encVal v ++ t)) = .ok v) ∧
    extract_first_json_value "\x7b\"a\":1\x7d\x7b\"a\":2\x7d" =
      .ok (.obj (.cons "a" (.num 1) .nil)) ∧
    (∀ s : String, s.toList ≠ [] → braceFree s.toList = true →
      extract_first_json_value s = .error "no JSON start found") :=
  ⟨extract_enc_append, rfl, extract_no_start⟩

/-- Witness for C2: the two-element duplicate-array input and a brace-free
input, at concrete values. -/
theorem C2_witness :
    extract_first_json_value (String.mk (encVal (.arr (.cons (.num 1) .nil)) ++ ['x'])) =
      .ok (.arr (.cons (.num 1) .nil)) ∧
    extract_first_json_value "xyz" = .error "no JSON start found" :=
  ⟨C2_extract_first_value.1 (.arr (.cons (.num 1) .nil)) ['x'] (by decide) (by decide)
      (by decide),
   C2_extract_first_value.2.2 "xyz" (by decide) (by decide)⟩

/-- C3 (amended): a json-tagged fence around an encoded container value is
stripped and the value recovered, for every well-formed container value; a bare
fence likewise whenever the payload contains no backtick; and the concrete
json-fence example recovers its object.  The original claim's stronger wording
— that the enclosed content is left unchanged in all cases — fails, because
the tag replacement rewrites the first occurrence of the tagged fence anywhere
in the text, including inside JSON string content (see the counterexample). -/
theorem C3_fence_stripping :
    (∀ v : JsonVal, wfVal v = true → isContainer v = true →
      extract_first_json_value
        (String.mk (fenceJsonMark ++ '\n' :: (encVal v ++ '\n' :: fenceMark))) = .ok v) ∧
    (∀ v : JsonVal, wfVal v = true → isContainer v = true → btickFree (encVal v) = true →
      extract_first_json_value
        (String.mk (fenceMark ++ '\n' :: (encVal v ++ '\n' :: fenceMark))) = .ok v) ∧
    extract_first_json_value "\x60\x60\x60json\n\x7b\"a\":1\x7d\n\x60\x60\x60" =
      .ok (.obj (.cons "a" (.num 1) .nil)) :=
  ⟨extract_fenced_tagged, extract_fenced_bare, rfl⟩

/-- Counterexample for C3 as stated: a bare-fenced block whose payload string
contains the tagged-fence text is decoded to a DIFFERENT value — the tag
replacement rewrote the string content — refuting the claim that the enclosed
JSON value's content is left unchanged. -/
theorem C3_counterexample :
    extract_first_json_value
        (String.mk (fenceMark ++ '\n' ::
          (encVal (.obj (.cons "a" (.str (String.mk fenceJsonMark)) .nil)) ++
            '\n' :: fenceMark))) =
      .ok (.obj (.cons "a" (.str (String.mk fenceMark)) .nil)) ∧
    JsonVal.obj (.cons "a" (.str (String.mk fenceMark)) .nil) ≠
      .obj (.cons "a" (.str (String.mk fenceJsonMark)) .nil) :=
  ⟨rfl, by decide⟩

/-- Witness for C3 at a concrete value: the empty object in both fence
shapes. -/
theorem C3_witness :
    extract_first_json_value
      (String.mk (fenceJsonMark ++ '\n' :: (encVal (.obj .nil) ++ '\n' :: fenceMark))) =
      .ok (.obj .nil) ∧
    extract_first_json_value
      (String.mk (fenceMark ++ '\n' :: (encVal (.obj .nil) ++ '\n' :: fenceMark))) =
      .ok (.obj .nil) :=
  ⟨C3_fence_stripping.1 (.obj .nil) (by decide) (by decide),
   C3_fence_stripping.2.1 (.obj .nil) (by decide) (by decide) (by decide)⟩

/-- C4: `normalize_url` on empty input yields the empty string; the trailing
loop drops the last character exactly while it lies in the seven-character set
`) ] . , ; \" '`, and stops otherwise; and the spec's example holds. -/
theorem C4_normalize_url_spec :
    (∀ u : String, u.toList = [] → normalize_url u = "") ∧
    (∀ (l : List Char) (c : Char), l.getLast? = some c → urlPunct c = true →
      normLoop l = normLoop l.dropLast) ∧
    (∀ l : List Char, l.getLast?.all (fun c => !urlPunct c) = true → normLoop l = l) ∧
    (∀ c : Char, urlPunct c = true ↔
      (c = ')' ∨ c = ']' ∨ c = '.' ∨ c = ',' ∨ c = ';' ∨ c = '"' ∨ c = '\'')) ∧
    normalize_url "https://example.com/page)." = "https://example.com/page" := by
  refine ⟨?_, fun l c h hp => normLoop_step h hp, fun l h => normLoop_stop h, ?_, by decide⟩
  · intro u h
    unfold normalize_url
    rw [h]
    rfl
  · intro c
    simp only [urlPunct, Bool.or_eq_true, beq_iff_eq]
    tauto

/-- Witness for C4: one loop step on a trailing dot, loop stop on a plain
letter, and the empty input. -/
theorem C4_witness :
    normLoop ['a', '.'] = normLoop (['a', '.'].dropLast) ∧ normLoop ['a'] = ['a'] ∧
    normalize_url "" = "" :=
  ⟨C4_normalize_url_spec.2.1 ['a', '.'] '.' rfl (by decide),
   C4_normalize_url_spec.2.2.1 ['a'] (by decide),
   C4_normalize_url_spec.1 "" rfl⟩

/-- C5 (amended): every string stored under a `url` key by the sanitization
pass, if non-empty, ends in a character that is not Python whitespace (in
particular not the space the spec's set names).  The spec's stronger claim —
no trailing character from `) \x7b ] . space , ; \" '` — fails: `\x7b` is
never stripped, and a punctuation character re-exposed by the final
whitespace strip survives (see the counterexample). -/
theorem C5_url_trailing (v : JsonVal) : urlsTrimVal (sanitize_links v) = true :=
  sanitize_links_urlsTrim v

/-- Counterexample for C5 as stated: sanitizing `\x7b"url":"x\x7b"\x7d`
leaves the url ending in `\x7b`, which lies in the spec's set; and sanitizing
a url `x) .` yields `x)`, ending in `)`, which lies both in the spec's set and
in the code's own punctuation set. -/
theorem C5_counterexample :
    sanitize_links (.obj (.cons "url" (.str "x\x7b") .nil)) =
      .obj (.cons "url" (.str "x\x7b") .nil) ∧
    "x\x7b".toList.getLast? = some '\x7b' ∧ specUrlPunct '\x7b' = true ∧
    sanitize_links (.obj (.cons "url" (.str "x) .") .nil)) =
      .obj (.cons "url" (.str "x)") .nil) ∧
    "x)".toList.getLast? = some ')' ∧ specUrlPunct ')' = true ∧ urlPunct ')' = true := by
  decide

/-- C6 (amended): sanitization is idempotent on the encoding of every
well-formed container value whose url strings are whitespace-free.  The
original unconditional claim fails: a url containing internal whitespace makes
`_normalize_url` — and hence the whole pass — non-idempotent (see the
counterexample). -/
theorem C6_sanitize_idempotent (v : JsonVal) (hwf : wfVal v = true)
    (hcont : isContainer v = true) (hurls : urlsOkVal v = true) :
    sanitize_json_str (sanitize_json_str (dumps v)) = sanitize_json_str (dumps v) := by
  have hw : wfVal (sanitize_links v) = true := by rw [wfVal_sanitize]; exact hwf
  have hcw : isContainer (sanitize_links v) = true := by rw [isContainer_sanitize]; exact hcont
  show sanitize_json_str (sanitize_json_str (String.mk (encVal v))) =
    sanitize_json_str (String.mk (encVal v))
  rw [sanitize_json_str_enc v hwf hcont, sanitize_json_str_enc _ hw hcw,
    sanitize_links_idem hurls]

/-- Counterexample for C6 as stated: the encodable value
`\x7b"url":"x. )"\x7d` sanitizes to `\x7b"url":"x."\x7d` and then again to
`\x7b"url":"x"\x7d` — applying the pass twice differs from applying it
once. -/
theorem C6_counterexample :
    sanitize_json_str (sanitize_json_str (dumps (.obj (.cons "url" (.str "x. )") .nil)))) ≠
      sanitize_json_str (dumps (.obj (.cons "url" (.str "x. )") .nil))) := by
  decide

/-- Witness for C6 at a concrete value satisfying the amended hypotheses. -/
theorem C6_witness :
    sanitize_json_str (sanitize_json_str (dumps (.obj (.cons "a" (.num 1) .nil)))) =
      sanitize_json_str (dumps (.obj (.cons "a" (.num 1) .nil))) :=
  C6_sanitize_idempotent (.obj (.cons "a" (.num 1) .nil)) (by decide) (by decide) (by decide)

/-- C7: a parseable published date (first ten characters, year-month-day)
strictly before the cutoff drops the entry; on or after the cutoff the record
keeps the parsed year; an unparseable date keeps the entry with the current
year; and at `recency_window_days = 30` with now on 2026-10-12, an entry
published on day D-31 (2026-09-11) is excluded while day D-29 (2026-09-13) is
included. -/
theorem C7_recency_filter :
    (∀ (now : Instant) (db : Int) (e : FeedEntry) (d : DateYMD),
      parseDate10 ((e.published.getD "").toList.take 10) = some d →
      dateMidnightSec d < instantSec now - db * 86400 →
      processEntry now db e = none) ∧
    (∀ (now : Instant) (db : Int) (e : FeedEntry) (d : DateYMD),
      parseDate10 ((e.published.getD "").toList.take 10) = some d →
      ¬ dateMidnightSec d < instantSec now - db * 86400 →
      ∃ r, processEntry now db e = some r ∧ r.year = d.year) ∧
    (∀ (now : Instant) (db : Int) (e : FeedEntry),
      parseDate10 ((e.published.getD "").toList.take 10) = none →
      ∃ r, processEntry now db e = some r ∧ r.year = now.date.year) ∧
    (∀ sec : Nat, sec < 86400 →
      processEntry ⟨⟨2026, 10, 12⟩, sec⟩ 30
        { published := some "2026-09-11T00:00:00Z", title := some "t", authors := [],
          link := none, summary := none } = none ∧
      (processEntry ⟨⟨2026, 10, 12⟩, sec⟩ 30
        { published := some "2026-09-13T00:00:00Z", title := some "t", authors := [],
          link := none, summary := none }).isSome = true) := by
  refine ⟨processEntry_drop, ?_, ?_, ?_⟩
  · intro now db e d hp hge
    exact ⟨_, processEntry_keep now db e d hp hge, rfl⟩
  · intro now db e hp
    exact ⟨_, processEntry_fallback now db e hp, rfl⟩
  · intro sec hsec
    have hnow : instantSec ⟨⟨2026, 10, 12⟩, sec⟩ = 1791763200 + (sec : Int) := by
      simp only [instantSec, show daysFromCivil ⟨2026, 10, 12⟩ = 20738 from by decide]
      omega
    constructor
    · apply processEntry_drop _ _ _ ⟨2026, 9, 11⟩ (by decide)
      rw [hnow, show dateMidnightSec ⟨2026, 9, 11⟩ = 1789084800 from by decide]
      omega
    · rw [processEntry_keep _ _ _ ⟨2026, 9, 13⟩ (by decide) ?hge]
      · rfl
      case hge =>
        rw [hnow, show dateMidnightSec ⟨2026, 9, 13⟩ = 1789257600 from by decide]
        omega

/-- Witness for C7: the boundary instance at noon of day D. -/
theorem C7_witness :
    processEntry ⟨⟨2026, 10, 12⟩, 43200⟩ 30
      { published := some "2026-09-11T00:00:00Z", title := some "t", authors := [],
        link := none, summary := none } = none ∧
    (processEntry ⟨⟨2026, 10, 12⟩, 43200⟩ 30
      { published := some "2026-09-13T00:00:00Z", title := some "t", authors := [],
        link := none, summary := none }).isSome = true :=
  C7_recency_filter.2.2.2 43200 (by decide)

/-- C8: the paper search never drops an entry except by the date filter — a
`none` result implies a parseable date before the cutoff; a malformed date
keeps the entry, with the year falling back to the current year; and an entry
with every field missing still yields a record with empty-string defaults and
the fixed venue. -/
theorem C8_no_single_entry_failure :
    (∀ (now : Instant) (db : Int) (e : FeedEntry), processEntry now db e = none →
      ∃ d, parseDate10 ((e.published.getD "").toList.take 10) = some d ∧
        dateMidnightSec d < instantSec now - db * 86400) ∧
    (∀ (now : Instant) (db : Int) (e : FeedEntry),
      parseDate10 ((e.published.getD "").toList.take 10) = none →
      processEntry now db e =
        some { title := String.mk (pyStrip (e.title.getD "").toList), authors := e.authors,
               year := now.date.year, venue := "arXiv", url := e.link.getD "",
               summary := String.mk (pyStrip (e.summary.getD "").toList) }) ∧
    (∀ (now : Instant) (db : Int),
      processEntry now db ⟨none, none, [], none, none⟩ =
        some ⟨"", [], now.date.year, "arXiv", "", ""⟩) :=
  ⟨fun _ _ _ h => processEntry_eq_none h, processEntry_fallback,
   fun now db => processEntry_fallback now db _ rfl⟩

/-- Witness for C8: a malformed date with whitespace-padded fields at a
concrete instant. -/
theorem C8_witness :
    processEntry ⟨⟨2026, 10, 12⟩, 0⟩ 30
      ⟨some "not a date", some " t ", ["a"], some "u", some " s "⟩ =
      some ⟨"t", ["a"], 2026, "arXiv", "u", "s"⟩ :=
  C8_no_single_entry_failure.2.1 ⟨⟨2026, 10, 12⟩, 0⟩ 30
    ⟨some "not a date", some " t ", ["a"], some "u", some " s "⟩ (by decide)

/-- C9: each hook touches at most its own key — `after_agent_sanitize_json`
replaces exactly the string under the agent's output key by its sanitized
form (and a `stSet` never changes any other key's lookup);
`after_agent_trim_final_summary` replaces exactly the string under
`final_summary` by its stripped form; and with no agent, no dict state, no
output key, or a missing/non-string value, each hook changes nothing. -/
theorem C9_hooks_frame :
    (∀ (ag : AgentRef) (st : StateMap) (k s : String),
      ag.output_key = some k → k ≠ "" → stGet st k = some (.str s) →
      after_agent_sanitize_json ⟨some ag, some st⟩ =
        ⟨some ag, some (stSet st k (.str (sanitize_json_str s)))⟩) ∧
    (∀ (st : StateMap) (k k' : String) (v : JsonVal), k' ≠ k →
      stGet (stSet st k v) k' = stGet st k') ∧
    (∀ cc : CallbackCtx, cc.agent = none ∨ cc.state = none →
      after_agent_sanitize_json cc = cc) ∧
    (∀ (ag : AgentRef) (st : StateMap), ag.output_key = none →
      after_agent_sanitize_json ⟨some ag, some st⟩ = ⟨some ag, some st⟩) ∧
    (∀ (ag : AgentRef) (st : StateMap) (k : String), ag.output_key = some k → k ≠ "" →
      (∀ s, stGet st k ≠ some (.str s)) →
      after_agent_sanitize_json ⟨some ag, some st⟩ = ⟨some ag, some st⟩) ∧
    (∀ (a : Option AgentRef) (st : StateMap) (s : String),
      stGet st "final_summary" = some (.str s) →
      after_agent_trim_final_summary ⟨a, some st⟩ =
        ⟨a, some (stSet st "final_summary" (.str (String.mk (pyStrip s.toList))))⟩) ∧
    (∀ (a : Option AgentRef) (st : StateMap),
      (∀ s, stGet st "final_summary" ≠ some (.str s)) →
      after_agent_trim_final_summary ⟨a, some st⟩ = ⟨a, some st⟩) ∧
    (∀ a : Option AgentRef, after_agent_trim_final_summary ⟨a, none⟩ = ⟨a, none⟩) := by
  refine ⟨?_, stGet_stSet_ne, ?_, ?_, ?_, ?_, ?_, fun a => rfl⟩
  · intro ag st k s hk hne hs
    simp only [after_agent_sanitize_json]
    rw [hk]
    simp [hne, hs]
  · intro cc h
    obtain ⟨a, stt⟩ := cc
    rcases h with h | h
    · simp only at h
      subst h
      cases stt <;> rfl
    · simp only at h
      subst h
      cases a <;> rfl
  · intro ag st hk
    simp only [after_agent_sanitize_json]
    rw [hk]
  · intro ag st k hk hne hns
    simp only [after_agent_sanitize_json]
    rw [hk]
    cases hg : stGet st k with
    | none => simp [hne, hg]
    | some v =>
      cases v with
      | str s => exact absurd hg (hns s)
      | null => simp [hne, hg]
      | bool b => simp [hne, hg]
      | num n => simp [hne, hg]
      | arr xs => simp [hne, hg]
      | obj o => simp [hne, hg]
  · intro a st s hs
    simp [after_agent_trim_final_summary, hs]
  · intro a st hns
    cases hg : stGet st "final_summary" with
    | none => simp [after_agent_trim_final_summary, hg]
    | some v =>
      cases v with
      | str s => exact absurd hg (hns s)
      | null => simp [after_agent_trim_final_summary, hg]
      | bool b => simp [after_agent_trim_final_summary, hg]
      | num n => simp [after_agent_trim_final_summary, hg]
      | arr xs => simp [after_agent_trim_final_summary, hg]
      | obj o => simp [after_agent_trim_final_summary, hg]

/-- Witness for C9: the sanitize hook rewriting the value under its own key
in a one-entry state. -/
theorem C9_witness :
    after_agent_sanitize_json ⟨some ⟨some "k"⟩, some [("k", .str "5")]⟩ =
      ⟨some ⟨some "k"⟩, some (stSet [("k", .str "5")] "k" (.str (sanitize_json_str "5")))⟩ :=
  C9_hooks_frame.1 ⟨some "k"⟩ [("k", .str "5")] "k" "5" rfl (by decide) (by decide)

/-- C10: the three fan-out branches write three pairwise distinct output
keys; for every completion order of the three branches, the state the
coordinator hands back holds all three results — the papers, repositories,
and blogs strings are all present, each under its own key, whatever order the
branches finished in (full barrier, no partial-results state is ever handed
on) — while every other key is untouched; and the pipeline runs the analyst
stage only on the state the coordinator returns, after the planner stage. -/
theorem C10_parallel_barrier :
    (paper_agent.outKey ≠ repo_agent.outKey ∧ paper_agent.outKey ≠ blog_agent.outKey ∧
      repo_agent.outKey ≠ blog_agent.outKey) ∧
    (∀ (gen : String → String) (st : StateMap) (order : List StageSpec),
      order ∈ branchOrders →
      stGet (runParallel gen order st) "papers_result" =
        some (.str (sanitize_json_str (gen "PaperAgent"))) ∧
      stGet (runParallel gen order st) "repos_result" =
        some (.str (sanitize_json_str (gen "RepoAgent"))) ∧
      stGet (runParallel gen order st) "blogs_result" =
        some (.str (sanitize_json_str (gen "BlogAgent"))) ∧
      (∀ k, k ≠ "papers_result" → k ≠ "repos_result" → k ≠ "blogs_result" →
        stGet (runParallel gen order st) k = stGet st k)) ∧
    (∀ (gen : String → String) (st : StateMap) (order : List StageSpec),
      runPipeline gen order st =
        runStage gen analyst_agent (runParallel gen order (runStage gen planner_agent st))) := by
  refine ⟨⟨by decide, by decide, by decide⟩, ?_, fun _ _ _ => rfl⟩
  intro gen st order hmem
  have hp : ∀ s1 : StateMap, runStage gen paper_agent s1 =
      stSet s1 "papers_result" (.str (sanitize_json_str (gen "PaperAgent"))) :=
    fun s1 => runStage_sanitize gen paper_agent rfl (by decide) s1
  have hr : ∀ s1 : StateMap, runStage gen repo_agent s1 =
      stSet s1 "repos_result" (.str (sanitize_json_str (gen "RepoAgent"))) :=
    fun s1 => runStage_sanitize gen repo_agent rfl (by decide) s1
  have hb : ∀ s1 : StateMap, runStage gen blog_agent s1 =
      stSet s1 "blogs_result" (.str (sanitize_json_str (gen "BlogAgent"))) :=
    fun s1 => runStage_sanitize gen blog_agent rfl (by decide) s1
  simp only [branchOrders, List.mem_cons, List.not_mem_nil, or_false] at hmem
  rcases hmem with rfl | rfl | rfl | rfl | rfl | rfl
  all_goals refine ⟨?_, ?_, ?_, fun k h1 h2 h3 => ?_⟩
  all_goals simp [runParallel_three, hp, hr, hb, stGet_stSet_self, stGet_stSet_ne, *]

/-- Witness for C10 at a concrete completion order, generator, and empty
state. -/
theorem C10_witness :
    stGet (runParallel (fun s => s) [repo_agent, paper_agent, blog_agent] [])
        "papers_result" = some (.str (sanitize_json_str "PaperAgent")) :=
  (C10_parallel_barrier.2.1 (fun s => s) [] [repo_agent, paper_agent, blog_agent]
    (by simp [branchOrders])).1

end Scout
